import Mathlib

/-!
# Bridge construction and scoring: a shallow embedding of `lib/bridge.py`

This file embeds the bridge-inference engine of the Unicycler fork (module
`lib/bridge.py`) in Lean 4 and verifies the frozen claims about it.

Modelling conventions:

* Python floats are modelled by exact rationals `ℚ` (the claims under study are
  about the algebraic structure of the computations, not about rounding of
  binary floating point).  The single genuinely irrational operation,
  `(1 / loop_count) ** 0.5`, is modelled by `Real.sqrt` over `ℝ`.
* Fallible Python code (expressions that can raise, such as division by zero
  or indexing an empty list) is modelled with `Option`: `none` means the
  Python code raises.
* Python dictionaries built by insertion are modelled as association lists
  (`List (key × value)`) in key-insertion order; Python 2 dictionary iteration
  order is arbitrary, and no claim below depends on the iteration order of
  the dictionaries involved, only on their contents.
* Python sets of comma-joined integer strings are modelled as lists of integer
  lists; the string encoding is injective, so set membership coincides.
* `sorted(...)` is modelled with `List.insertionSort`, which is a stable sort,
  matching the guarantee of the Python built-in.
* Classes that live outside `lib/bridge.py` (the assembly graph, segments,
  reads and alignments) are consumed through a narrow interface; they are
  modelled as structures holding exactly the attributes and method results
  that `lib/bridge.py` reads.
-/

/-! ## Scoring primitives (`get_num_agreement`, `weighted_average`, `get_mean_depth`) -/

/-- `get_num_agreement(num_1, num_2)` from `lib/bridge.py`.

Returns `none` exactly when the Python code raises `ZeroDivisionError`: after
the both-negative normalisation, `min(num_1, num_2) / max(num_1, num_2)` is
evaluated, and the divisor `max` is zero precisely when one value is negative
and the other is zero (both-zero and opposite-nonzero-sign pairs have already
returned). -/
def getNumAgreement (num₁ num₂ : ℚ) : Option ℚ :=
  if num₁ = 0 ∧ num₂ = 0 then some 1
  else
    let n₁ := if num₁ < 0 ∧ num₂ < 0 then -num₁ else num₁
    let n₂ := if num₁ < 0 ∧ num₂ < 0 then -num₂ else num₂
    if n₁ * n₂ < 0 then some 0
    else if max n₁ n₂ = 0 then none
    else some (min n₁ n₂ / max n₁ n₂)

/-- `weighted_average(num_1, num_2, weight_1, weight_2)` from `lib/bridge.py`.
`none` models the `ZeroDivisionError` raised when `weight_1 + weight_2 == 0`. -/
def weightedAverage (num₁ num₂ weight₁ weight₂ : ℚ) : Option ℚ :=
  let weightSum := weight₁ + weight₂
  if weightSum = 0 then none
  else some (num₁ * (weight₁ / weightSum) + num₂ * (weight₂ / weightSum))

/-- Rational division that models Python float division:
`none` when the divisor is zero (`ZeroDivisionError`). -/
def ratDiv (a b : ℚ) : Option ℚ :=
  if b = 0 then none else some (a / b)

/-- A graph segment, as consumed by `lib/bridge.py`.  The class itself lives in
the assembly-graph module, outside the embedded source; only the attributes
read by `lib/bridge.py` are modelled.  `lengthNoOverlap` is the value of the
external method call `get_length_no_overlap(graph.overlap)`, stored directly
(the formula behind it is never used by `lib/bridge.py`). -/
structure Segment where
  depth : ℚ
  lengthNoOverlap : ℚ
deriving DecidableEq

/-- The assembly graph interface used by `lib/bridge.py` (external collaborator;
modelled as the functions the bridge code calls).  `segments` models the
dictionary `graph.segments` keyed by unsigned segment number; `connected`
models `get_connected_segments` (signed segment number to unsigned neighbour
numbers); `pathSequence` models `get_path_sequence`. -/
structure Graph where
  segments : ℕ → Segment
  connected : ℤ → List ℕ
  pathSequence : List ℤ → String
  overlap : ℕ

/-- `get_mean_depth(seg_1, seg_2, graph)` from `lib/bridge.py`: the mean of the
two depths weighted by overlap-excluded length. -/
def getMeanDepth (seg₁ seg₂ : Segment) : Option ℚ :=
  weightedAverage seg₁.depth seg₂.depth seg₁.lengthNoOverlap seg₂.lengthNoOverlap

/-! ## Self-containment check and the SPAdes contig bridge -/

/-- `path_is_self_contained(path, start, end, graph)` from `lib/bridge.py`:
the unsigned numbers of `path`, `start` and `end` are collected, and every
segment of `path` may only connect to members of that collection. -/
def pathIsSelfContained (g : Graph) (path : List ℤ) (start end_ : ℤ) : Bool :=
  let allNumbersInPath := start.natAbs :: end_.natAbs :: path.map Int.natAbs
  path.all fun segment =>
    (g.connected segment).all fun connectedSegment =>
      connectedSegment ∈ allNumbersInPath

/-- The per-segment depth-consistency factors of `SpadesContigBridge.__init__`
(the body of the `path_is_self_contained` branch), multiplied together.
`graph_path_pos_nums = list(set(abs(x) for x in graph_path))` is modelled by
`List.dedup`; the iteration order of a Python set is arbitrary, but the
product of the factors does not depend on it.  NOTE (faithful to the source):
`count` is taken over the DEDUPLICATED list `graph_path_pos_nums`, so the
occurrence count is always 1. -/
def depthFactorStep (g : Graph) (countList : List ℕ) (bridgeDepth : ℚ)
    (acc : Option ℚ) (pathSegment : ℕ) : Option ℚ := do
  let q ← acc
  let actualDepth := (g.segments pathSegment).depth
  let expectedDepth := (countList.count pathSegment : ℚ) * bridgeDepth
  let agreement ← getNumAgreement actualDepth expectedDepth
  pure (q * agreement)

/-- The factor product of the `path_is_self_contained` branch, source version:
both the iteration and the `count` run over the deduplicated
`graph_path_pos_nums`. -/
def selfContainedFactors (g : Graph) (graphPath : List ℤ) (bridgeDepth : ℚ) : Option ℚ :=
  let graphPathPosNums := (graphPath.map Int.natAbs).dedup
  graphPathPosNums.foldl (depthFactorStep g graphPathPosNums bridgeDepth) (some 1)

/-- Follows the words of the specification (claim C1), for comparison with
`selfContainedFactors`: the expected depth of a distinct path segment is its
occurrence count in the INTERNAL PATH itself times the bridge depth. -/
def selfContainedFactorsSpec (g : Graph) (graphPath : List ℤ) (bridgeDepth : ℚ) : Option ℚ :=
  let pathPosNums := graphPath.map Int.natAbs
  pathPosNums.dedup.foldl (depthFactorStep g pathPosNums bridgeDepth) (some 1)

/-- The fields of a constructed `SpadesContigBridge`. -/
structure SpadesContigBridgeData where
  startSegment : ℤ
  endSegment : ℤ
  graphPath : List ℤ
  bridgeSequence : String
  depth : ℚ
  quality : ℚ
deriving DecidableEq

/-- `SpadesContigBridge.__init__(graph, spades_contig_path)` from
`lib/bridge.py`.  The first and last values of `spades_contig_path` are popped
as the start and end segments (`none` models the `IndexError` on a too-short
list); quality starts at 20.0, is multiplied by the squared endpoint depth
agreement, and, when the internal path is self-contained, by the per-segment
depth-consistency factors. -/
def spadesContigBridge (g : Graph) (spadesContigPath : List ℤ) :
    Option SpadesContigBridgeData := do
  let startSegment ← spadesContigPath.head?
  let endSegment ← (spadesContigPath.drop 1).getLast?
  let graphPath := (spadesContigPath.drop 1).dropLast
  let bridgeSequence := g.pathSequence graphPath
  let startSeg := g.segments startSegment.natAbs
  let endSeg := g.segments endSegment.natAbs
  let depthAgreement ← getNumAgreement startSeg.depth endSeg.depth
  let quality₁ := 20 * (depthAgreement * depthAgreement)
  let depth ← getMeanDepth startSeg endSeg
  let quality₂ ←
    if pathIsSelfContained g graphPath startSegment endSegment then
      (selfContainedFactors g graphPath depth).map (fun factors => quality₁ * factors)
    else pure quality₁
  pure ⟨startSegment, endSegment, graphPath, bridgeSequence, depth, quality₂⟩

/-! ## The loop unrolling bridge -/

/-- Python 2 `round`: round half away from zero. -/
def pythonRound (x : ℚ) : ℤ :=
  if x < 0 then ⌈x - 1 / 2⌉ else ⌊x + 1 / 2⌋

/-- The loop count chosen by `LoopUnrollingBridge.__init__`:
1 when the mean loop count is below 1, otherwise `int(round(mean_loop_count))`
(`int` truncation of the already-whole rounded value is the identity). -/
def loopCount (meanLoopCount : ℚ) : ℤ :=
  if meanLoopCount < 1 then 1 else pythonRound meanLoopCount

/-- The closeness-to-whole-number factor of `LoopUnrollingBridge.__init__`.
`fractional_part = mean_loop_count % 1` is `x - ⌊x⌋` for Python floats. -/
def closenessToWholeNum (meanLoopCount : ℚ) : ℚ :=
  if meanLoopCount < 1 then meanLoopCount
  else
    let fractionalPart := meanLoopCount - ⌊meanLoopCount⌋
    let distanceFromWholeNum := min fractionalPart (1 - fractionalPart)
    1 - 2 * distanceFromWholeNum

/-- The graph path built at the end of `LoopUnrollingBridge.__init__`:
`[repeat]`, then `loop_count` times `+= [middle, repeat]`. -/
def loopGraphPath (repeatSeg middleSeg : ℤ) (n : ℕ) : List ℤ :=
  (List.range n).foldl (fun acc _ => acc ++ [middleSeg, repeatSeg]) [repeatSeg]

/-- The mean loop count computed by `LoopUnrollingBridge.__init__` (lines
computing `loop_count_by_middle`, `loop_count_by_repeat` and their weighted
average).  `none` models any `ZeroDivisionError` along the way. -/
def loopMeanCount (g : Graph) (start end_ middle repeat_ : ℤ) : Option ℚ := do
  let startSeg := g.segments start.natAbs
  let endSeg := g.segments end_.natAbs
  let middleSeg := g.segments middle.natAbs
  let repeatSeg := g.segments repeat_.natAbs
  let depth ← getMeanDepth startSeg endSeg
  let loopCountByMiddle ← ratDiv middleSeg.depth depth
  let loopCountByRepeat ← ratDiv (repeatSeg.depth - depth) depth
  weightedAverage loopCountByMiddle loopCountByRepeat
    middleSeg.lengthNoOverlap repeatSeg.lengthNoOverlap

/-- The fields of a constructed `LoopUnrollingBridge`.  `quality` lives in `ℝ`
because the loop-count penalty is a square root. -/
structure LoopUnrollingBridgeData where
  startSegment : ℤ
  endSegment : ℤ
  graphPath : List ℤ
  bridgeSequence : String
  depth : ℚ
  quality : ℝ

/-- `LoopUnrollingBridge.__init__(graph, start, end, middle, repeat)` from
`lib/bridge.py`: quality starts at 10.0, is multiplied by the squared endpoint
depth agreement, by the closeness of the mean loop count to a whole number,
and by the loop-count penalty `(1 / loop_count) ** 0.5` (a real square root);
the graph path unrolls the loop `loop_count` times. -/
noncomputable def loopUnrollingBridge (g : Graph) (start end_ middle repeat_ : ℤ) :
    Option LoopUnrollingBridgeData := do
  let startSeg := g.segments start.natAbs
  let endSeg := g.segments end_.natAbs
  let depthAgreement ← getNumAgreement startSeg.depth endSeg.depth
  let depth ← getMeanDepth startSeg endSeg
  let meanLoopCount ← loopMeanCount g start end_ middle repeat_
  let n := loopCount meanLoopCount
  let closeness := closenessToWholeNum meanLoopCount
  let loopCountPenalty : ℝ := Real.sqrt (1 / (n : ℝ))
  let quality : ℝ := ((10 * (depthAgreement * depthAgreement) * closeness : ℚ) : ℝ) *
    loopCountPenalty
  let graphPath := loopGraphPath repeat_ middle n.toNat
  pure ⟨start, end_, graphPath, g.pathSequence graphPath, depth, quality⟩

/-! ## Association-list dictionaries

Python dictionaries built by "ensure key, then append to the list at the key"
are modelled as association lists in key-insertion order. -/

/-- Append `a` to the list stored at key `k` (creating the key at the end of
the dictionary when absent), mirroring
`if k not in d: d[k] = []` followed by `d[k].append(a)`. -/
def assocAppend {κ α : Type} [DecidableEq κ] :
    List (κ × List α) → κ → α → List (κ × List α)
  | [], k, a => [(k, [a])]
  | (k', v) :: rest, k, a =>
    if k' = k then (k', v ++ [a]) :: rest else (k', v) :: assocAppend rest k a

/-- Look up the list stored at key `k` (empty when absent). -/
def assocLookup {κ α : Type} [DecidableEq κ] : List (κ × List α) → κ → List α
  | [], _ => []
  | (k', v) :: rest, k => if k' = k then v else assocLookup rest k

/-! ## Contig bridge candidate deduplication (`create_spades_contig_bridges`, first stage) -/

/-- `[-x for x in reversed(path)]`: the reverse complement of a signed path. -/
def revCompPath (path : List ℤ) : List ℤ :=
  path.reverse.map (fun x => -x)

/-- `contig_bridge[0] < 0 and contig_bridge[-1] < 0` (false on the empty list,
where the Python code would raise instead; candidates are never empty). -/
def bothEndsNegative (path : List ℤ) : Bool :=
  match path.head?, path.getLast? with
  | some a, some b => decide (a < 0) && decide (b < 0)
  | _, _ => false

/-- One iteration of the deduplication loop of `create_spades_contig_bridges`:
if neither the candidate nor its reverse complement is in the set yet, insert
the candidate — or, when both its endpoints are negative, its reverse
complement.  The Python set of comma-joined strings is modelled as a list of
paths without duplicates (the string encoding is injective). -/
def dedupeStep (bridgePathSet : List (List ℤ)) (contigBridge : List ℤ) : List (List ℤ) :=
  if contigBridge ∈ bridgePathSet ∨ revCompPath contigBridge ∈ bridgePathSet then
    bridgePathSet
  else if bothEndsNegative contigBridge then bridgePathSet ++ [revCompPath contigBridge]
  else bridgePathSet ++ [contigBridge]

/-- The whole deduplication pass over a list of candidate bridging sub-paths,
in encounter order. -/
def dedupePaths (candidates : List (List ℤ)) : List (List ℤ) :=
  candidates.foldl dedupeStep []

/-! ## Contig bridge conflict filtering (`create_spades_contig_bridges`, second stage) -/

/-- Building `bridge_paths_by_start` and `bridge_paths_by_end`: every path is
filed under its start and under the negated end in `by_start`, and under its
end and the negated start in `by_end`.  (`path[0]` and `path[-1]` are `headI`
and `getLastI`; the conflict-filter stage only ever receives nonempty paths.) -/
def buildDictsStep (m : List (ℤ × List (List ℤ)) × List (ℤ × List (List ℤ)))
    (path : List ℤ) : List (ℤ × List (List ℤ)) × List (ℤ × List (List ℤ)) :=
  let start := path.headI
  let end_ := path.getLastI
  (assocAppend (assocAppend m.1 start path) (-end_) path,
   assocAppend (assocAppend m.2 end_ path) (-start) path)

/-- Fold `buildDictsStep` over the whole (deduplicated, sorted) path list. -/
def buildDicts (bridgePathList : List (List ℤ)) :
    List (ℤ × List (List ℤ)) × List (ℤ × List (List ℤ)) :=
  bridgePathList.foldl buildDictsStep ([], [])

/-- The accumulation loop over the bucket lists of one dictionary: every
bucket holding more than one entry contributes all its entries. -/
def conflictGather (groups : List (List (List ℤ))) (init : List (List ℤ)) : List (List ℤ) :=
  groups.foldl
    (fun acc groupedPaths => if 1 < groupedPaths.length then acc ++ groupedPaths else acc) init

/-- The order-preserving deduplication loop building
`conflicting_paths_no_dups`. -/
def conflictDedupe (conflicting : List (List ℤ)) : List (List ℤ) :=
  conflicting.foldl (fun acc path => if path ∈ acc then acc else acc ++ [path]) []

/-- The `conflicting_paths` list: every bucket of either dictionary holding
more than one entry contributes all its entries (`by_start` values first,
then `by_end` values); the result is then deduplicated preserving order. -/
def conflictingPaths (bridgePathList : List (List ℤ)) : List (List ℤ) :=
  let dicts := buildDicts bridgePathList
  conflictDedupe
    (conflictGather (dicts.2.map Prod.snd) (conflictGather (dicts.1.map Prod.snd) []))

/-- `final_bridge_paths = [x for x in bridge_path_list if x not in conflicting_paths]`. -/
def finalBridgePaths (bridgePathList : List (List ℤ)) : List (List ℤ) :=
  bridgePathList.filter (fun path => decide (path ∉ conflictingPaths bridgePathList))

/-- Specification-side count (claim C5): how many entries path `q` contributes
to the `by_start` bucket of key `k` (one for its start, one for its negated
end — both, when the two coincide). -/
def startKeyCount (q : List ℤ) (k : ℤ) : ℕ :=
  (if q.headI = k then 1 else 0) + (if -q.getLastI = k then 1 else 0)

/-- Specification-side count (claim C5): contributions of `q` to the `by_end`
bucket of key `k`. -/
def endKeyCount (q : List ℤ) (k : ℤ) : ℕ :=
  (if q.getLastI = k then 1 else 0) + (if -q.headI = k then 1 else 0)

/-- Total load of the `by_start` bucket at key `k`, counted with multiplicity. -/
def startLoad (bridgePathList : List (List ℤ)) (k : ℤ) : ℕ :=
  (bridgePathList.map (fun q => startKeyCount q k)).sum

/-- Total load of the `by_end` bucket at key `k`, counted with multiplicity. -/
def endLoad (bridgePathList : List (List ℤ)) (k : ℤ) : ℕ :=
  (bridgePathList.map (fun q => endKeyCount q k)).sum

/-- Proof-side description of a `by_start` bucket: the per-path contributions
in insertion order. -/
def startBucketSpec (bridgePathList : List (List ℤ)) (k : ℤ) : List (List ℤ) :=
  bridgePathList.flatMap fun q =>
    (if q.headI = k then [q] else []) ++ (if -q.getLastI = k then [q] else [])

/-- Proof-side description of a `by_end` bucket. -/
def endBucketSpec (bridgePathList : List (List ℤ)) (k : ℤ) : List (List ℤ) :=
  bridgePathList.flatMap fun q =>
    (if q.getLastI = k then [q] else []) ++ (if -q.headI = k then [q] else [])

/-! ## Reads, alignments and per-read alignment selection -/

/-- A read-to-segment alignment, as consumed by `lib/bridge.py`.  The class is
an external collaborator; the fields model exactly the attributes and method
results the bridge code reads: `refNum` is `alignment.ref.number`, `refLen`
is `alignment.ref.get_length()`, `alignedRefLength` is
`get_aligned_ref_length()`, `readStartPos` and `readEndPos` are
`read_start_positive_strand()` and `read_end_positive_strand()`,
`signedRefNum` is `get_signed_ref_num()`, and `startOverlap` and `endOverlap`
are `get_start_overlapping_read_seq()` and `get_end_overlapping_read_seq()`
(the empty string models a falsy result). -/
structure ReadAlignment where
  refNum : ℕ
  refLen : ℕ
  scaledScore : ℚ
  rawScore : ℚ
  alignedRefLength : ℕ
  refStartPos : ℕ
  refEndGap : ℕ
  readStartPos : ℕ
  readEndPos : ℕ
  signedRefNum : ℤ
  startOverlap : String
  endOverlap : String
deriving DecidableEq

instance : Inhabited ReadAlignment :=
  ⟨⟨0, 0, 0, 0, 0, 0, 0, 0, 0, 0, "", ""⟩⟩

/-- `sorted(..., key=lambda x: x.scaled_score, reverse=True)`. -/
def scaledScoreDesc (a b : ReadAlignment) : Prop :=
  b.scaledScore ≤ a.scaledScore

instance : DecidableRel scaledScoreDesc := fun a b =>
  inferInstanceAs (Decidable (b.scaledScore ≤ a.scaledScore))

instance : IsTotal ReadAlignment scaledScoreDesc :=
  ⟨fun a b => (le_total b.scaledScore a.scaledScore).imp id id⟩

instance : IsTrans ReadAlignment scaledScoreDesc :=
  ⟨fun _ _ _ h₁ h₂ => le_trans h₂ h₁⟩

/-- `sorted(..., key=lambda x: x.raw_score, reverse=True)`. -/
def rawScoreDesc (a b : ReadAlignment) : Prop :=
  b.rawScore ≤ a.rawScore

instance : DecidableRel rawScoreDesc := fun a b =>
  inferInstanceAs (Decidable (b.rawScore ≤ a.rawScore))

instance : IsTotal ReadAlignment rawScoreDesc :=
  ⟨fun a b => (le_total b.rawScore a.rawScore).imp id id⟩

instance : IsTrans ReadAlignment rawScoreDesc :=
  ⟨fun _ _ _ h₁ h₂ => le_trans h₂ h₁⟩

/-- `sorted(..., key=lambda x: x.read_start_positive_strand())`. -/
def readStartAsc (a b : ReadAlignment) : Prop :=
  a.readStartPos ≤ b.readStartPos

instance : DecidableRel readStartAsc := fun a b =>
  inferInstanceAs (Decidable (a.readStartPos ≤ b.readStartPos))

instance : IsTotal ReadAlignment readStartAsc :=
  ⟨fun a b => le_total a.readStartPos b.readStartPos⟩

instance : IsTrans ReadAlignment readStartAsc :=
  ⟨fun _ _ _ h₁ h₂ => le_trans h₁ h₂⟩

/-- `allowed_overlap = round(int(1.1 * graph.overlap))` from
`create_long_read_bridges`: `int()` truncates the float `1.1 * overlap`
toward zero (for a non-negative overlap, the floor, which for exact binary
floats of realistic magnitude agrees with the rational floor), and `round` of
an integer is the identity. -/
def allowedOverlap (overlap : ℕ) : ℕ :=
  11 * overlap / 10

/-- The overlap allowance as the words of claim C7 state it:
`round(1.1 * graph.overlap)` with no truncation. -/
def allowedOverlapClaimed (overlap : ℕ) : ℤ :=
  round ((11 * overlap : ℚ) / 10)

/-- The per-reference-group body of `get_single_copy_alignments`: sort the
group by scaled score (descending), always keep the best alignment, and keep
the second-best alignment too when the combined aligned length fits within
the reference length plus `allowed_overlap` and the two alignments cover
opposite ends of the reference.  (A group is never empty in the caller; the
empty case models the `IndexError` arm as an empty result.) -/
def processGroup (allowedOv : ℕ) (alignments : List ReadAlignment) : List ReadAlignment :=
  match alignments.insertionSort scaledScoreDesc with
  | [] => []
  | bestAlignment :: rest =>
    match rest with
    | [] => [bestAlignment]
    | secondBestAlignment :: _ =>
      let combinedLen := bestAlignment.alignedRefLength + secondBestAlignment.alignedRefLength
      if combinedLen ≤ bestAlignment.refLen + allowedOv ∧
          ((0 < bestAlignment.refStartPos ∧ 0 < secondBestAlignment.refEndGap) ∨
           (0 < bestAlignment.refEndGap ∧ 0 < secondBestAlignment.refStartPos)) then
        [bestAlignment, secondBestAlignment]
      else [bestAlignment]

/-- The grouping loop of `get_single_copy_alignments`: alignments to
single-copy references with `scaled_score >= min_scaled_score`, grouped by
reference number into the dictionary `sc_alignments`. -/
def buildScGroups (alignments : List ReadAlignment) (singleCopyNumSet : List ℕ)
    (minScaledScore : ℚ) : List (ℕ × List ReadAlignment) :=
  alignments.foldl
    (fun m alignment =>
      if alignment.refNum ∈ singleCopyNumSet then
        if alignment.scaledScore < minScaledScore then m
        else assocAppend m alignment.refNum alignment
      else m)
    []

/-- `get_single_copy_alignments(read, single_copy_num_set, allowed_overlap,
min_scaled_score)` from `lib/bridge.py` (taking the alignment list of the
read): group, then process every group. -/
def getSingleCopyAlignments (alignments : List ReadAlignment) (singleCopyNumSet : List ℕ)
    (allowedOv : ℕ) (minScaledScore : ℚ) : List ReadAlignment :=
  (buildScGroups alignments singleCopyNumSet minScaledScore).flatMap
    fun kv => processGroup allowedOv kv.2

/-! ## Segment-pair canonicalisation (`flip_segment_order`) -/

/-- `flip_segment_order(seg_num_1, seg_num_2)` from `lib/bridge.py`. -/
def flipSegmentOrder (segNum₁ segNum₂ : ℤ) : (ℤ × ℤ) × Bool :=
  let flip :=
    if 0 < segNum₁ ∧ 0 < segNum₂ then false
    else if segNum₁ < 0 ∧ segNum₂ < 0 then true
    else if segNum₁ < 0 then decide (segNum₂.natAbs < segNum₁.natAbs)
    else decide (segNum₁.natAbs < segNum₂.natAbs)
  if flip then ((-segNum₂, -segNum₁), true) else ((segNum₁, segNum₂), false)

/-! ## Long-read evidence collection (`create_long_read_bridges`) -/

/-- Modelled from the spec: the external sequence utility
`reverse_complement` from `misc` — reverse the string and complement each
nucleotide. -/
def complementBase (c : Char) : Char :=
  if c = 'A' then 'T'
  else if c = 'T' then 'A'
  else if c = 'C' then 'G'
  else if c = 'G' then 'C'
  else c

/-- Modelled from the spec: `reverse_complement` applied to a whole string. -/
def reverseComplement (s : String) : String :=
  (s.data.reverse.map complementBase).asString

/-- Python string slicing `s[start:stop]` for non-negative bounds. -/
def sliceString (s : String) (start stop : ℕ) : String :=
  ((s.data.drop start).take (stop - start)).asString

/-- One entry of `spanning_read_seqs`: the tuple
`(bridge_seq, alignment_1, alignment_2)`, where `bridge_seq` is either a read
substring or a non-positive gap length. -/
structure SpanRecord where
  bridgeSeq : String ⊕ ℤ
  alignment₁ : ReadAlignment
  alignment₂ : ReadAlignment
deriving DecidableEq

/-- The per-pair body of the spanning-evidence loop of
`create_long_read_bridges` (lines pairing `alignment_1`, `alignment_2`):
canonicalise the signed reference pair, and — when that pair has not been
recorded for this read yet — record the bridging read sequence (or the
non-positive gap).  State: the per-read `already_added` set and the list of
additions to `spanning_read_seqs`. -/
def spanPairStep (readSequence : String)
    (st : List (ℤ × ℤ) × List ((ℤ × ℤ) × SpanRecord))
    (pair : ReadAlignment × ReadAlignment) :
    List (ℤ × ℤ) × List ((ℤ × ℤ) × SpanRecord) :=
  let alignment₁ := pair.1
  let alignment₂ := pair.2
  let flipped := (flipSegmentOrder alignment₁.signedRefNum alignment₂.signedRefNum).2
  let segNums := (flipSegmentOrder alignment₁.signedRefNum alignment₂.signedRefNum).1
  if segNums ∈ st.1 then st
  else
    let bridgeStart := alignment₁.readEndPos
    let bridgeEnd := alignment₂.readStartPos
    let bridgeSeq : String ⊕ ℤ :=
      if bridgeStart < bridgeEnd then
        let s := sliceString readSequence bridgeStart bridgeEnd
        Sum.inl (if flipped then reverseComplement s else s)
      else Sum.inr ((bridgeEnd : ℤ) - (bridgeStart : ℤ))
    (st.1 ++ [segNums], st.2 ++ [(segNums, ⟨bridgeSeq, alignment₁, alignment₂⟩)])

/-- The per-read collection phase of `create_long_read_bridges` (lines from
the `sorted_alignments` sort to the end-overlap capture), for a read whose
retained single-copy alignments are `alignments` (nonempty; the caller skips
reads with no alignments).  Returns the additions to `spanning_read_seqs`
and to `overlapping_read_seqs` made for this read.

The working list `available_alignments` grows by one alignment per outer
iteration (in descending raw-score order) and is re-sorted by read start
position; every adjacent pair of the current working list is then examined
(`available[i]`, `available[i+1]`, modelled by zipping with the tail).

NOTE (faithful to the source): the overlap-evidence keys are taken from the
leftover loop variable `alignment` — the LAST element of
`sorted_alignments`, i.e. the lowest-raw-score alignment — not from
`first_alignment` / `last_alignment`, which are only used for the sequences. -/
def collectFromRead (readSequence : String) (alignments : List ReadAlignment) :
    List ((ℤ × ℤ) × SpanRecord) × List (ℤ × String) :=
  let sortedAlignments := alignments.insertionSort rawScoreDesc
  let finalState := sortedAlignments.foldl
    (fun (st : List ReadAlignment × List (ℤ × ℤ) × List ((ℤ × ℤ) × SpanRecord)) alignment =>
      let availableAlignments := (st.1 ++ [alignment]).insertionSort readStartAsc
      let inner := (availableAlignments.zip availableAlignments.tail).foldl
        (spanPairStep readSequence) (st.2.1, st.2.2)
      (availableAlignments, inner.1, inner.2))
    ([], [], [])
  let availableAlignments := finalState.1
  let loopAlignment := sortedAlignments.getLastD default
  let firstAlignment := availableAlignments.headD default
  let startOverlap := firstAlignment.startOverlap
  let startAdditions :=
    if startOverlap ≠ "" then
      [(-loopAlignment.signedRefNum, reverseComplement startOverlap)]
    else []
  let lastAlignment := availableAlignments.getLastD default
  let endOverlap := lastAlignment.endOverlap
  let endAdditions :=
    if endOverlap ≠ "" then [(loopAlignment.signedRefNum, endOverlap)] else []
  (finalState.2.2, startAdditions ++ endAdditions)

/-- A long read with its alignments (read store entry). -/
structure Read where
  sequence : String
  alignments : List ReadAlignment

/-- A single-copy segment as passed to the builders (only its `number`
attribute is read). -/
structure SingleCopySegment where
  number : ℕ

/-- The fields set by `LongReadBridge.__init__` (all defaults; the constructor
body is incomplete in the source and assigns nothing else). -/
structure LongReadBridge where
  startSegment : Option ℤ
  endSegment : Option ℤ
  readNames : List String
  consensusSequence : String
  consensusLength : ℚ
  graphPath : List ℤ
  bridgeSequence : String
  depth : ℚ
  quality : ℚ

/-- `LongReadBridge()` with its default field values; quality starts (and
stays) at 1.0. -/
def mkLongReadBridge : LongReadBridge :=
  ⟨none, none, [], "", 0, [], "", 0, 1⟩

/-- `create_long_read_bridges(graph, read_dict, read_names, single_copy_segments,
verbosity, existing_bridges, min_scaled_score)` from `lib/bridge.py`.  The
collection phase fills `spanning_read_seqs` and `overlapping_read_seqs`
(modelled per read by `collectFromRead`, merged into association-list
dictionaries), after which the unfinished function returns the empty list. -/
def createLongReadBridges (graphOverlap : ℕ) (readDict : String → Read)
    (readNames : List String) (singleCopySegments : List SingleCopySegment)
    (verbosity : ℤ) (existingBridges : List LongReadBridge)
    (minScaledScore : ℚ) : List LongReadBridge :=
  let singleCopySegNumSet := singleCopySegments.map SingleCopySegment.number
  let allowedOv := allowedOverlap graphOverlap
  let collected := readNames.foldl
    (fun (st : List ((ℤ × ℤ) × List SpanRecord) × List (ℤ × List String)) readName =>
      let read := readDict readName
      let alignments :=
        getSingleCopyAlignments read.alignments singleCopySegNumSet allowedOv minScaledScore
      if alignments = [] then st
      else
        let additions := collectFromRead read.sequence alignments
        (additions.1.foldl (fun m e => assocAppend m e.1 e.2) st.1,
         additions.2.foldl (fun m e => assocAppend m e.1 e.2) st.2))
    ([], [])
  let _ := collected
  let _ := verbosity
  let _ := existingBridges
  []

/-! ## Concrete instances used to evaluate the embedded code -/

/-- A small graph for exercising `SpadesContigBridge`: single-copy endpoints 1
and 2 of depth 10, an internal segment 4 of depth 25, with segment 4 connected
only to segments of the bridge (so the path `[4, 4]` is self-contained). -/
def exSpadesGraph : Graph where
  segments := fun n =>
    if n = 1 then ⟨10, 1⟩
    else if n = 2 then ⟨10, 1⟩
    else if n = 4 then ⟨25, 1⟩
    else ⟨0, 1⟩
  connected := fun z => if z.natAbs = 4 then [1, 2, 4] else []
  pathSequence := fun _ => ""
  overlap := 0

/-- A simple loop whose repeat segment is SHALLOWER than the bridge depth
(endpoint depths 10, middle depth 1, repeat depth 2): the mean loop count
comes out negative. -/
def exShallowLoopGraph : Graph where
  segments := fun n =>
    if n = 1 then ⟨10, 1⟩
    else if n = 2 then ⟨10, 1⟩
    else if n = 3 then ⟨1, 1⟩
    else if n = 4 then ⟨2, 1⟩
    else ⟨0, 1⟩
  connected := fun _ => []
  pathSequence := fun _ => ""
  overlap := 0

/-- A well-behaved simple loop (endpoint depths 10, middle depth 10, repeat
depth 20): the mean loop count is exactly 1. -/
def exWholeLoopGraph : Graph where
  segments := fun n =>
    if n = 1 then ⟨10, 1⟩
    else if n = 2 then ⟨10, 1⟩
    else if n = 3 then ⟨10, 1⟩
    else if n = 4 then ⟨20, 1⟩
    else ⟨0, 1⟩
  connected := fun _ => []
  pathSequence := fun _ => ""
  overlap := 0

/-- A strong alignment to reference 1 covering its start. -/
def exAlignmentBest : ReadAlignment :=
  ⟨1, 100, 10, 0, 40, 5, 0, 0, 0, 1, "", ""⟩

/-- A weaker alignment to reference 1 covering its end: together with
`exAlignmentBest` it satisfies the wrap-around retention conditions. -/
def exAlignmentSecond : ReadAlignment :=
  ⟨1, 100, 8, 0, 50, 0, 3, 0, 0, 1, "", ""⟩

/-- First alignment (by read position) of the three-alignment read: signed
reference 3, highest raw score, with a start-overlap sequence. -/
def exReadAlignment₁ : ReadAlignment :=
  ⟨3, 100, 1, 10, 0, 0, 0, 0, 30, 3, "AC", ""⟩

/-- Middle alignment of the three-alignment read: signed reference 5 and the
LOWEST raw score, so it is the leftover value of the loop variable
`alignment` after the sorted-by-score loop finishes. -/
def exReadAlignment₂ : ReadAlignment :=
  ⟨5, 100, 1, 1, 0, 0, 0, 50, 80, 5, "", ""⟩

/-- Last alignment (by read position) of the three-alignment read: signed
reference 7, middle raw score, with an end-overlap sequence. -/
def exReadAlignment₃ : ReadAlignment :=
  ⟨7, 100, 1, 7, 0, 0, 0, 100, 130, 7, "", "GG"⟩


/-! # Verification -/

theorem getNumAgreement_mem_unit {a b v : ℚ} (h : getNumAgreement a b = some v) :
    0 ≤ v ∧ v ≤ 1 := by
  simp only [getNumAgreement] at h
  split_ifs at h with h₀ hneg hprod hmax hprod2 hmax2
  · obtain rfl : (1 : ℚ) = v := Option.some.inj h
    norm_num
  · obtain rfl : (0 : ℚ) = v := Option.some.inj h
    norm_num
  · obtain rfl : min (-a) (-b) / max (-a) (-b) = v := Option.some.inj h
    have ha : 0 < -a := by linarith [hneg.1]
    have hb : 0 < -b := by linarith [hneg.2]
    have hmaxpos : 0 < max (-a) (-b) := lt_max_iff.mpr (Or.inl ha)
    exact ⟨div_nonneg (le_min ha.le hb.le) hmaxpos.le, (div_le_one hmaxpos).mpr min_le_max⟩
  · obtain rfl : (0 : ℚ) = v := Option.some.inj h
    norm_num
  · obtain rfl : min a b / max a b = v := Option.some.inj h
    have hprodge : 0 ≤ a * b := not_lt.mp hprod2
    have hab : 0 ≤ a ∧ 0 ≤ b := by
      rcases lt_trichotomy a 0 with ha | ha | ha
      · have hbge : 0 ≤ b := le_of_not_lt (fun hb => hneg ⟨ha, hb⟩)
        have hb0 : b = 0 := le_antisymm (by nlinarith) hbge
        rw [hb0, max_eq_right ha.le] at hmax2
        exact absurd rfl hmax2
      · subst ha
        rcases lt_or_le b 0 with hb | hb
        · rw [max_eq_left hb.le] at hmax2
          exact absurd rfl hmax2
        · exact ⟨le_refl 0, hb⟩
      · refine ⟨ha.le, ?_⟩
        rcases lt_or_le b 0 with hb | hb
        · nlinarith
        · exact hb
    have hmaxne : max a b ≠ 0 := hmax2
    have hmaxpos : 0 < max a b :=
      lt_of_le_of_ne (le_max_of_le_left hab.1) (Ne.symm hmaxne)
    exact ⟨div_nonneg (le_min hab.1 hab.2) hmaxpos.le, (div_le_one hmaxpos).mpr min_le_max⟩

theorem getNumAgreement_eq_none_iff (a b : ℚ) :
    getNumAgreement a b = none ↔ (a < 0 ∧ b = 0) ∨ (a = 0 ∧ b < 0) := by
  constructor
  · intro h
    simp only [getNumAgreement] at h
    split_ifs at h with h₀ hneg hprod hmax hprod2 hmax2
    · -- both negative: max of two positives cannot vanish
      exfalso
      have ha : 0 < -a := by linarith [hneg.1]
      have : (0:ℚ) < max (-a) (-b) := lt_max_iff.mpr (Or.inl ha)
      exact absurd hmax (ne_of_gt this)
    · -- not both negative, same sign, max zero
      have ha0 : a ≤ 0 := le_trans (le_max_left a b) (le_of_eq hmax2)
      have hb0 : b ≤ 0 := le_trans (le_max_right a b) (le_of_eq hmax2)
      rcases eq_or_lt_of_le ha0 with ha | ha
      · right
        refine ⟨ha, ?_⟩
        rcases eq_or_lt_of_le hb0 with hb | hb
        · exact absurd ⟨ha, hb⟩ h₀
        · exact hb
      · left
        refine ⟨ha, ?_⟩
        rcases eq_or_lt_of_le hb0 with hb | hb
        · exact hb
        · exact absurd ⟨ha, hb⟩ hneg
  · intro h
    rcases h with ⟨ha, hb⟩ | ⟨ha, hb⟩
    · subst hb
      have h₁ : ¬(a = 0 ∧ (0:ℚ) = 0) := fun hc => absurd hc.1 (ne_of_lt ha)
      have h₂ : ¬(a < 0 ∧ (0:ℚ) < 0) := fun hc => lt_irrefl 0 hc.2
      have h₃ : ¬(a * 0 < 0) := by simp
      have h₄ : max a 0 = 0 := max_eq_right ha.le
      simp [getNumAgreement, h₁, h₂, h₃, h₄, ne_of_lt ha]
    · subst ha
      have h₁ : ¬((0:ℚ) = 0 ∧ b = 0) := fun hc => absurd hc.2 (ne_of_lt hb)
      have h₂ : ¬((0:ℚ) < 0 ∧ b < 0) := fun hc => lt_irrefl 0 hc.1
      have h₃ : ¬((0:ℚ) * b < 0) := by simp
      have h₄ : max (0:ℚ) b = 0 := max_eq_left hb.le
      simp [getNumAgreement, h₁, h₂, h₃, h₄, ne_of_lt hb]

theorem foldl_depthFactorStep_none (g : Graph) (cl : List ℕ) (d : ℚ) (l : List ℕ) :
    l.foldl (depthFactorStep g cl d) none = none := by
  induction l with
  | nil => rfl
  | cons s l ih => exact ih

theorem foldl_depthFactorStep_mem_unit (g : Graph) (cl : List ℕ) (d : ℚ) (l : List ℕ) :
    ∀ q : ℚ, 0 ≤ q → q ≤ 1 →
      ∀ v, l.foldl (depthFactorStep g cl d) (some q) = some v → 0 ≤ v ∧ v ≤ 1 := by
  induction l with
  | nil =>
    intro q h0 h1 v hv
    obtain rfl : q = v := Option.some.inj hv
    exact ⟨h0, h1⟩
  | cons s l ih =>
    intro q h0 h1 v hv
    rw [List.foldl_cons] at hv
    rcases hga : getNumAgreement (g.segments s).depth ((cl.count s : ℚ) * d) with _ | a
    · rw [show depthFactorStep g cl d (some q) s = none by simp [depthFactorStep, hga]] at hv
      rw [foldl_depthFactorStep_none] at hv
      exact absurd hv (by simp)
    · rw [show depthFactorStep g cl d (some q) s = some (q * a) by
        simp [depthFactorStep, hga]] at hv
      obtain ⟨ha0, ha1⟩ := getNumAgreement_mem_unit hga
      exact ih (q * a) (mul_nonneg h0 ha0) (mul_le_one₀ h1 ha0 ha1) v hv

theorem selfContainedFactors_mem_unit {g : Graph} {graphPath : List ℤ} {d f : ℚ}
    (h : selfContainedFactors g graphPath d = some f) : 0 ≤ f ∧ f ≤ 1 := by
  unfold selfContainedFactors at h
  exact foldl_depthFactorStep_mem_unit _ _ _ _ 1 (by norm_num) (by norm_num) f h

theorem closenessToWholeNum_mem_unit {m : ℚ} (hm : 0 ≤ m) :
    0 ≤ closenessToWholeNum m ∧ closenessToWholeNum m ≤ 1 := by
  unfold closenessToWholeNum
  dsimp only
  split_ifs with h
  · exact ⟨hm, h.le⟩
  · have h1 : (⌊m⌋ : ℚ) ≤ m := Int.floor_le m
    have h2 : m < ⌊m⌋ + 1 := Int.lt_floor_add_one m
    rcases le_total (m - ⌊m⌋) (1 - (m - ⌊m⌋)) with hle | hle
    · rw [min_eq_left hle]
      constructor <;> linarith
    · rw [min_eq_right hle]
      constructor <;> linarith

theorem one_le_loopCount {m : ℚ} (hm : 0 ≤ m) : 1 ≤ loopCount m := by
  unfold loopCount pythonRound
  split_ifs with h1 h2
  · exact le_refl 1
  · exact absurd h2 (not_lt.mpr hm)
  · have hm1 : (1:ℚ) ≤ m := not_lt.mp h1
    exact Int.le_floor.mpr (by push_cast; linarith)

theorem spadesContigBridge_quality_mem (g : Graph) (p : List ℤ) :
    ∀ b, spadesContigBridge g p = some b → 0 ≤ b.quality ∧ b.quality ≤ 20 := by
  intro b h
  simp only [spadesContigBridge, bind, Option.bind_eq_some, Option.pure_def,
    Option.some.injEq] at h
  obtain ⟨startSegment, hstart, endSegment, hend, ag, hag, depth, hdepth, hrest⟩ := h
  obtain ⟨hag0, hag1⟩ := getNumAgreement_mem_unit hag
  split_ifs at hrest with hsc
  · simp only [Option.bind_eq_some, Option.map_eq_some', Option.some.injEq] at hrest
    obtain ⟨q₂, ⟨f, hf, hq₂⟩, hb⟩ := hrest
    obtain ⟨hf0, hf1⟩ := selfContainedFactors_mem_unit hf
    subst hb
    subst hq₂
    dsimp only
    constructor
    · positivity
    · nlinarith
  · simp only [Option.some_bind, Option.some.injEq] at hrest
    subst hrest
    dsimp only
    constructor
    · positivity
    · nlinarith

theorem loopUnrollingBridge_quality_mem (g : Graph) (start end_ middle repeat_ : ℤ) (μ : ℚ)
    (hμ : loopMeanCount g start end_ middle repeat_ = some μ) (hμ0 : 0 ≤ μ) :
    ∀ b, loopUnrollingBridge g start end_ middle repeat_ = some b →
      0 ≤ b.quality ∧ b.quality ≤ 10 := by
  intro b h
  simp only [loopUnrollingBridge, bind, Option.bind_eq_some, Option.pure_def,
    Option.some.injEq] at h
  obtain ⟨ag, hag, depth, hdepth, μ₂, hμ₂, hb⟩ := h
  obtain rfl : μ = μ₂ := Option.some.inj (hμ.symm.trans hμ₂)
  obtain ⟨hag0, hag1⟩ := getNumAgreement_mem_unit hag
  obtain ⟨hc0, hc1⟩ := closenessToWholeNum_mem_unit hμ0
  have hn : 1 ≤ loopCount μ := one_le_loopCount hμ0
  have hnR : (1 : ℝ) ≤ ((loopCount μ : ℤ) : ℝ) := by exact_mod_cast hn
  have hs0 : 0 ≤ Real.sqrt (1 / ((loopCount μ : ℤ) : ℝ)) := Real.sqrt_nonneg _
  have hs1 : Real.sqrt (1 / ((loopCount μ : ℤ) : ℝ)) ≤ 1 :=
    Real.sqrt_le_one.mpr ((div_le_one (by linarith)).mpr hnR)
  have hq0 : (0 : ℚ) ≤ 10 * (ag * ag) * closenessToWholeNum μ := by positivity
  have hq1 : 10 * (ag * ag) * closenessToWholeNum μ ≤ 10 := by nlinarith
  subst hb
  dsimp only
  constructor
  · exact mul_nonneg (by exact_mod_cast hq0) hs0
  · calc ((10 * (ag * ag) * closenessToWholeNum μ : ℚ) : ℝ) *
        Real.sqrt (1 / ((loopCount μ : ℤ) : ℝ))
        ≤ ((10 * (ag * ag) * closenessToWholeNum μ : ℚ) : ℝ) :=
          mul_le_of_le_one_right (by exact_mod_cast hq0) hs1
      _ ≤ 10 := by exact_mod_cast hq1

theorem loopGraphPath_eq (repeatSeg middleSeg : ℤ) (n : ℕ) :
    loopGraphPath repeatSeg middleSeg n =
      [repeatSeg] ++ (List.replicate n [middleSeg, repeatSeg]).flatten := by
  have general : ∀ m (init : List ℤ),
      (List.range m).foldl (fun acc _ => acc ++ [middleSeg, repeatSeg]) init =
        init ++ (List.replicate m [middleSeg, repeatSeg]).flatten := by
    intro m
    induction m with
    | zero => intro init; simp
    | succ m ih =>
      intro init
      rw [List.range_succ, List.foldl_append, ih]
      simp [List.replicate_succ']
  exact general n [repeatSeg]

theorem loopUnrollingBridge_graphPath (g : Graph) (start end_ middle repeat_ : ℤ) (μ : ℚ)
    (hμ : loopMeanCount g start end_ middle repeat_ = some μ) :
    ∀ b, loopUnrollingBridge g start end_ middle repeat_ = some b →
      b.graphPath = loopGraphPath repeat_ middle (loopCount μ).toNat := by
  intro b h
  simp only [loopUnrollingBridge, bind, Option.bind_eq_some, Option.pure_def,
    Option.some.injEq] at h
  obtain ⟨ag, hag, depth, hdepth, μ₂, hμ₂, hb⟩ := h
  obtain rfl : μ = μ₂ := Option.some.inj (hμ.symm.trans hμ₂)
  subst hb
  rfl

/-! ## Properties of candidate deduplication -/

theorem revCompPath_involutive (p : List ℤ) : revCompPath (revCompPath p) = p := by
  simp [revCompPath, List.map_reverse, Function.comp]

theorem bothEndsNegative_revCompPath {p : List ℤ} (h : bothEndsNegative p = true) :
    bothEndsNegative (revCompPath p) = false := by
  unfold bothEndsNegative at h ⊢
  unfold revCompPath
  rcases hh : p.head? with _ | a <;> rcases hl : p.getLast? with _ | z <;>
    rw [hh, hl] at h <;> try simp at h
  have hmh : (p.reverse.map fun x => -x).head? = some (-z) := by
    rw [List.head?_map, List.head?_reverse, hl]
    rfl
  rw [hmh]
  rcases hml : (p.reverse.map fun x => -x).getLast? with _ | w
  · rfl
  · simp only [Bool.and_eq_false_imp, decide_eq_true_eq, decide_eq_false_iff_not, not_lt]
    intro hz
    linarith [h.2]

/-- The reverse-complement equivalence class of `c`, as a Boolean predicate. -/
def rcClass (c q : List ℤ) : Bool :=
  decide (q = c ∨ q = revCompPath c)

theorem rcClass_congr {c d : List ℤ} (hd : rcClass c d = true) (q : List ℤ) :
    rcClass d q = rcClass c q := by
  simp only [rcClass, decide_eq_true_eq] at hd
  rcases hd with rfl | rfl
  · rfl
  · simp only [rcClass, revCompPath_involutive, decide_eq_decide]
    exact or_comm

theorem rcClass_self (c : List ℤ) : rcClass c c = true := by
  simp [rcClass]

theorem rcClass_revComp (c : List ℤ) : rcClass c (revCompPath c) = true := by
  simp [rcClass]

theorem rcClass_mem_of_countP_pos {c : List ℤ} {s : List (List ℤ)}
    (h : 0 < s.countP (rcClass c)) : c ∈ s ∨ revCompPath c ∈ s := by
  obtain ⟨q, hq, hcq⟩ := List.countP_pos_iff.mp h
  simp only [rcClass, decide_eq_true_eq] at hcq
  rcases hcq with rfl | rfl
  · exact Or.inl hq
  · exact Or.inr hq

theorem countP_pos_of_mem_rcClass {c : List ℤ} {s : List (List ℤ)}
    (h : c ∈ s ∨ revCompPath c ∈ s) : 0 < s.countP (rcClass c) := by
  rcases h with h | h
  · exact List.countP_pos_iff.mpr ⟨c, h, rcClass_self c⟩
  · exact List.countP_pos_iff.mpr ⟨revCompPath c, h, rcClass_revComp c⟩

/-- The element inserted by `dedupeStep` is in the class of the candidate. -/
theorem rcClass_canonical (d : List ℤ) :
    rcClass d (if bothEndsNegative d then revCompPath d else d) = true := by
  split_ifs
  · exact rcClass_revComp d
  · exact rcClass_self d

/-- Membership of the canonical form of `d` in the class of `c` forces `d`
itself into the class of `c`. -/
theorem rcClass_of_canonical {c d : List ℤ}
    (h : rcClass c (if bothEndsNegative d then revCompPath d else d) = true) :
    rcClass c d = true := by
  split_ifs at h with hbe
  · simp only [rcClass, decide_eq_true_eq] at h ⊢
    rcases h with h | h
    · right
      rw [← h, revCompPath_involutive]
    · left
      have := congrArg revCompPath h
      rwa [revCompPath_involutive, revCompPath_involutive] at this
  · exact h

/-- In the insertion branch, the step appends exactly the canonical form. -/
theorem dedupeStep_of_not_mem {s : List (List ℤ)} {d : List ℤ}
    (hmem : ¬(d ∈ s ∨ revCompPath d ∈ s)) :
    dedupeStep s d = s ++ [if bothEndsNegative d then revCompPath d else d] := by
  unfold dedupeStep
  rw [if_neg hmem]
  split_ifs <;> rfl

theorem dedupeStep_countP_keep {c : List ℤ} {s : List (List ℤ)} (d : List ℤ)
    (h1 : s.countP (rcClass c) = 1) :
    (dedupeStep s d).countP (rcClass c) = 1 := by
  by_cases hmem : d ∈ s ∨ revCompPath d ∈ s
  · unfold dedupeStep
    rw [if_pos hmem]
    exact h1
  · rw [dedupeStep_of_not_mem hmem, List.countP_append, h1]
    have hce : rcClass c (if bothEndsNegative d then revCompPath d else d) = false := by
      by_contra hcd
      have hcd : rcClass c (if bothEndsNegative d then revCompPath d else d) = true :=
        Bool.of_not_eq_false hcd
      have hcdd : rcClass c d = true := rcClass_of_canonical hcd
      have hds : c ∈ s ∨ revCompPath c ∈ s :=
        rcClass_mem_of_countP_pos (h1 ▸ Nat.one_pos)
      apply hmem
      simp only [rcClass, decide_eq_true_eq] at hcdd
      rcases hcdd with rfl | rfl
      · exact hds
      · rw [revCompPath_involutive]
        exact hds.symm
    simp [hce]

theorem dedupeStep_countP_new {c : List ℤ} {s : List (List ℤ)} {d : List ℤ}
    (h0 : s.countP (rcClass c) = 0) (hcd : rcClass c d = true) :
    (dedupeStep s d).countP (rcClass c) = 1 := by
  have hmem : ¬(d ∈ s ∨ revCompPath d ∈ s) := by
    rintro (hd | hd)
    · have := List.countP_pos_iff.mpr ⟨d, hd, hcd⟩
      omega
    · have hcrd : rcClass c (revCompPath d) = true := by
        rw [← rcClass_congr hcd (revCompPath d)]
        exact rcClass_revComp d
      have := List.countP_pos_iff.mpr ⟨revCompPath d, hd, hcrd⟩
      omega
  rw [dedupeStep_of_not_mem hmem, List.countP_append, h0]
  have hce : rcClass c (if bothEndsNegative d then revCompPath d else d) = true := by
    rw [← rcClass_congr hcd]
    exact rcClass_canonical d
  simp [hce]

theorem dedupeStep_countP_le {c : List ℤ} {s : List (List ℤ)} (d : List ℤ)
    (hs : s.countP (rcClass c) ≤ 1) :
    (dedupeStep s d).countP (rcClass c) ≤ 1 := by
  rcases Nat.le_one_iff_eq_zero_or_eq_one.mp hs with h0 | h1
  · by_cases hmem : d ∈ s ∨ revCompPath d ∈ s
    · unfold dedupeStep
      rw [if_pos hmem]
      exact hs
    · rw [dedupeStep_of_not_mem hmem, List.countP_append, h0]
      have : List.countP (rcClass c) [if bothEndsNegative d then revCompPath d else d] ≤ 1 :=
        List.countP_le_length _
      omega
  · rw [dedupeStep_countP_keep d h1]

theorem foldl_dedupeStep_countP {c : List ℤ} :
    ∀ (l : List (List ℤ)) (s : List (List ℤ)),
      s.countP (rcClass c) ≤ 1 →
      (c ∈ l ∨ s.countP (rcClass c) = 1) →
      (l.foldl dedupeStep s).countP (rcClass c) = 1 := by
  intro l
  induction l with
  | nil =>
    intro s _ h
    rcases h with h | h
    · exact absurd h (List.not_mem_nil c)
    · exact h
  | cons d l ih =>
    intro s hle h
    rw [List.foldl_cons]
    rcases Nat.le_one_iff_eq_zero_or_eq_one.mp hle with h0 | h1
    · rcases h with h | h
      · rcases List.mem_cons.mp h with rfl | hcl
        · exact ih _ (le_of_eq (dedupeStep_countP_new h0 (rcClass_self c)))
            (Or.inr (dedupeStep_countP_new h0 (rcClass_self c)))
        · exact ih _ (dedupeStep_countP_le d (by omega)) (Or.inl hcl)
      · omega
    · exact ih _ (le_of_eq (dedupeStep_countP_keep d h1)) (Or.inr (dedupeStep_countP_keep d h1))

theorem foldl_dedupeStep_ends :
    ∀ (l : List (List ℤ)) (s : List (List ℤ)),
      (∀ q ∈ s, bothEndsNegative q = false) →
      ∀ q ∈ l.foldl dedupeStep s, bothEndsNegative q = false := by
  intro l
  induction l with
  | nil => exact fun s hs => hs
  | cons d l ih =>
    intro s hs
    rw [List.foldl_cons]
    apply ih
    by_cases hmem : d ∈ s ∨ revCompPath d ∈ s
    · unfold dedupeStep
      rw [if_pos hmem]
      exact hs
    · rw [dedupeStep_of_not_mem hmem]
      intro q hq
      rcases List.mem_append.mp hq with hq | hq
      · exact hs q hq
      · rcases List.mem_singleton.mp hq with rfl
        by_cases hbe : bothEndsNegative d = true
        · rw [if_pos hbe]
          exact bothEndsNegative_revCompPath hbe
        · rw [if_neg hbe]
          exact Bool.not_eq_true _ ▸ Bool.of_not_eq_true hbe

/-! ## Properties of the association-list dictionaries and conflict filtering -/

theorem assocLookup_assocAppend {κ α : Type} [DecidableEq κ]
    (m : List (κ × List α)) (k : κ) (a : α) (k' : κ) :
    assocLookup (assocAppend m k a) k' =
      if k' = k then assocLookup m k' ++ [a] else assocLookup m k' := by
  induction m with
  | nil =>
    by_cases h : k' = k
    · subst h
      simp [assocAppend, assocLookup]
    · simp [assocAppend, assocLookup, h, Ne.symm h]
  | cons kv rest ih =>
    obtain ⟨j, v⟩ := kv
    by_cases hj : j = k
    · subst hj
      by_cases h : k' = j
      · subst h
        simp [assocAppend, assocLookup]
      · simp [assocAppend, assocLookup, h, Ne.symm h]
    · by_cases h : k' = j
      · subst h
        have hk : ¬ k' = k := fun hc => hj (hc ▸ rfl)
        simp [assocAppend, assocLookup, hj, hk]
      · simp [assocAppend, assocLookup, hj, Ne.symm h, ih]

theorem keys_assocAppend {κ α : Type} [DecidableEq κ]
    (m : List (κ × List α)) (k : κ) (a : α) :
    (assocAppend m k a).map Prod.fst =
      if k ∈ m.map Prod.fst then m.map Prod.fst else m.map Prod.fst ++ [k] := by
  induction m with
  | nil => simp [assocAppend]
  | cons kv rest ih =>
    obtain ⟨j, v⟩ := kv
    by_cases hj : j = k
    · subst hj
      simp [assocAppend]
    · simp only [assocAppend, if_neg hj, List.map_cons, List.mem_cons]
      have hkj : ¬ k = j := fun hc => hj hc.symm
      rw [ih]
      by_cases hk : k ∈ rest.map Prod.fst <;> simp [hk, hkj]

theorem nodup_keys_assocAppend {κ α : Type} [DecidableEq κ]
    {m : List (κ × List α)} (h : (m.map Prod.fst).Nodup) (k : κ) (a : α) :
    ((assocAppend m k a).map Prod.fst).Nodup := by
  rw [keys_assocAppend]
  split_ifs with hk
  · exact h
  · simp [List.nodup_append, h, hk]

theorem assocLookup_of_mem {κ α : Type} [DecidableEq κ] :
    ∀ {m : List (κ × List α)}, (m.map Prod.fst).Nodup →
      ∀ {k : κ} {v : List α}, (k, v) ∈ m → assocLookup m k = v := by
  intro m
  induction m with
  | nil => exact fun _ _ _ h => absurd h (List.not_mem_nil _)
  | cons kv rest ih =>
    obtain ⟨j, w⟩ := kv
    intro hnd k v hm
    rw [List.map_cons, List.nodup_cons] at hnd
    obtain ⟨hjrest, hndrest⟩ := hnd
    rcases List.mem_cons.mp hm with he | hm2
    · obtain ⟨rfl, rfl⟩ := Prod.mk.inj he.symm
      simp [assocLookup]
    · have hj : ¬ j = k := by
        rintro rfl
        exact hjrest (List.mem_map.mpr ⟨(j, v), hm2, rfl⟩)
      simp only [assocLookup, if_neg hj]
      exact ih hndrest hm2

theorem mem_of_assocLookup_ne {κ α : Type} [DecidableEq κ] :
    ∀ (m : List (κ × List α)) (k : κ), assocLookup m k ≠ [] →
      (k, assocLookup m k) ∈ m := by
  intro m
  induction m with
  | nil => exact fun k h => absurd rfl h
  | cons kv rest ih =>
    obtain ⟨j, w⟩ := kv
    intro k h
    by_cases hj : j = k
    · subst hj
      simp [assocLookup]
    · simp only [assocLookup, if_neg hj] at h ⊢
      exact List.mem_cons_of_mem _ (ih k h)

theorem assocLookup_buildDicts (ps : List (List ℤ)) :
    ∀ (m : List (ℤ × List (List ℤ)) × List (ℤ × List (List ℤ))) (k : ℤ),
      assocLookup (ps.foldl buildDictsStep m).1 k =
        assocLookup m.1 k ++ startBucketSpec ps k ∧
      assocLookup (ps.foldl buildDictsStep m).2 k =
        assocLookup m.2 k ++ endBucketSpec ps k := by
  induction ps with
  | nil =>
    intro m k
    simp [startBucketSpec, endBucketSpec]
  | cons p ps ih =>
    intro m k
    rw [List.foldl_cons]
    obtain ⟨ih1, ih2⟩ := ih (buildDictsStep m p) k
    rw [ih1, ih2]
    unfold buildDictsStep
    constructor
    · rw [assocLookup_assocAppend, assocLookup_assocAppend]
      unfold startBucketSpec
      rw [List.flatMap_cons]
      by_cases h1 : p.headI = k <;> by_cases h2 : -p.getLastI = k
      · simp [h1, h2, List.append_assoc]
      · simp [h1, h2, Ne.symm h2, List.append_assoc]
      · simp [h1, Ne.symm h1, h2, List.append_assoc]
      · simp [h1, Ne.symm h1, h2, Ne.symm h2, List.append_assoc]
    · rw [assocLookup_assocAppend, assocLookup_assocAppend]
      unfold endBucketSpec
      rw [List.flatMap_cons]
      by_cases h1 : p.getLastI = k <;> by_cases h2 : -p.headI = k
      · simp [h1, h2, List.append_assoc]
      · simp [h1, h2, Ne.symm h2, List.append_assoc]
      · simp [h1, Ne.symm h1, h2, List.append_assoc]
      · simp [h1, Ne.symm h1, h2, Ne.symm h2, List.append_assoc]

theorem length_startBucketSpec (ps : List (List ℤ)) (k : ℤ) :
    (startBucketSpec ps k).length = startLoad ps k := by
  induction ps with
  | nil => rfl
  | cons p ps ih =>
    unfold startBucketSpec startLoad startKeyCount at *
    rw [List.flatMap_cons, List.map_cons, List.sum_cons, List.length_append, ih,
      List.length_append]
    congr 1
    split_ifs <;> rfl

theorem length_endBucketSpec (ps : List (List ℤ)) (k : ℤ) :
    (endBucketSpec ps k).length = endLoad ps k := by
  induction ps with
  | nil => rfl
  | cons p ps ih =>
    unfold endBucketSpec endLoad endKeyCount at *
    rw [List.flatMap_cons, List.map_cons, List.sum_cons, List.length_append, ih,
      List.length_append]
    congr 1
    split_ifs <;> rfl

theorem mem_startBucketSpec {ps : List (List ℤ)} {k : ℤ} {q : List ℤ} :
    q ∈ startBucketSpec ps k ↔ q ∈ ps ∧ (q.headI = k ∨ -q.getLastI = k) := by
  unfold startBucketSpec
  rw [List.mem_flatMap]
  constructor
  · rintro ⟨r, hr, hq⟩
    rcases List.mem_append.mp hq with hq | hq <;> split_ifs at hq with hc <;>
      first
        | exact absurd hq (List.not_mem_nil q)
        | (obtain rfl := List.mem_singleton.mp hq
           exact ⟨hr, by tauto⟩)
  · rintro ⟨hq, hk | hk⟩ <;> exact ⟨q, hq, by simp [hk]⟩

theorem mem_endBucketSpec {ps : List (List ℤ)} {k : ℤ} {q : List ℤ} :
    q ∈ endBucketSpec ps k ↔ q ∈ ps ∧ (q.getLastI = k ∨ -q.headI = k) := by
  unfold endBucketSpec
  rw [List.mem_flatMap]
  constructor
  · rintro ⟨r, hr, hq⟩
    rcases List.mem_append.mp hq with hq | hq <;> split_ifs at hq with hc <;>
      first
        | exact absurd hq (List.not_mem_nil q)
        | (obtain rfl := List.mem_singleton.mp hq
           exact ⟨hr, by tauto⟩)
  · rintro ⟨hq, hk | hk⟩ <;> exact ⟨q, hq, by simp [hk]⟩

theorem nodup_keys_buildDicts (ps : List (List ℤ)) :
    (((buildDicts ps).1.map Prod.fst).Nodup ∧ ((buildDicts ps).2.map Prod.fst).Nodup) := by
  unfold buildDicts
  have general : ∀ (l : List (List ℤ)) (m : List (ℤ × List (List ℤ)) × List (ℤ × List (List ℤ))),
      (m.1.map Prod.fst).Nodup → (m.2.map Prod.fst).Nodup →
      ((l.foldl buildDictsStep m).1.map Prod.fst).Nodup ∧
        ((l.foldl buildDictsStep m).2.map Prod.fst).Nodup := by
    intro l
    induction l with
    | nil => exact fun m h1 h2 => ⟨h1, h2⟩
    | cons p l ih =>
      intro m h1 h2
      rw [List.foldl_cons]
      exact ih _ (nodup_keys_assocAppend (nodup_keys_assocAppend h1 _ _) _ _)
        (nodup_keys_assocAppend (nodup_keys_assocAppend h2 _ _) _ _)
  exact general ps ([], []) (by simp) (by simp)

theorem mem_conflictGather :
    ∀ (L : List (List (List ℤ))) (init : List (List ℤ)) (x : List ℤ),
      (x ∈ conflictGather L init ↔
        x ∈ init ∨ ∃ g ∈ L, 1 < g.length ∧ x ∈ g) := by
  intro L
  unfold conflictGather
  induction L with
  | nil => simp
  | cons g L ih =>
    intro init x
    rw [List.foldl_cons]
    by_cases hg : 1 < g.length
    · rw [if_pos hg, ih]
      simp only [List.mem_append, List.mem_cons]
      constructor
      · rintro ((hx | hx) | ⟨g', hg', hx⟩)
        · exact Or.inl hx
        · exact Or.inr ⟨g, Or.inl rfl, hg, hx⟩
        · exact Or.inr ⟨g', Or.inr hg', hx⟩
      · rintro (hx | ⟨g', (rfl | hg'), hlen, hx⟩)
        · exact Or.inl (Or.inl hx)
        · exact Or.inl (Or.inr hx)
        · exact Or.inr ⟨g', hg', hlen, hx⟩
    · rw [if_neg hg, ih]
      simp only [List.mem_cons]
      constructor
      · rintro (hx | ⟨g', hg', hlen, hx⟩)
        · exact Or.inl hx
        · exact Or.inr ⟨g', Or.inr hg', hlen, hx⟩
      · rintro (hx | ⟨g', (rfl | hg'), hlen, hx⟩)
        · exact Or.inl hx
        · exact absurd hlen hg
        · exact Or.inr ⟨g', hg', hlen, hx⟩

theorem mem_conflictDedupe_general :
    ∀ (L init : List (List ℤ)) (x : List ℤ),
      (x ∈ L.foldl (fun acc path => if path ∈ acc then acc else acc ++ [path]) init ↔
        x ∈ init ∨ x ∈ L) := by
  intro L
  induction L with
  | nil => simp
  | cons p L ih =>
    intro init x
    rw [List.foldl_cons]
    by_cases hp : p ∈ init
    · rw [if_pos hp, ih]
      simp only [List.mem_cons]
      constructor
      · rintro (hx | hx)
        · exact Or.inl hx
        · exact Or.inr (Or.inr hx)
      · rintro (hx | rfl | hx)
        · exact Or.inl hx
        · exact Or.inl hp
        · exact Or.inr hx
    · rw [if_neg hp, ih]
      simp only [List.mem_append, List.mem_singleton, List.mem_cons]
      tauto

theorem values_conflict_iff {m : List (ℤ × List (List ℤ))}
    (hnd : (m.map Prod.fst).Nodup) (p : List ℤ) :
    (∃ g ∈ m.map Prod.snd, 1 < g.length ∧ p ∈ g) ↔
      ∃ k, 1 < (assocLookup m k).length ∧ p ∈ assocLookup m k := by
  constructor
  · rintro ⟨g, hg, hlen, hp⟩
    obtain ⟨⟨k, v⟩, hkv, rfl⟩ := List.mem_map.mp hg
    have hv := assocLookup_of_mem hnd hkv
    exact ⟨k, by rw [hv]; exact hlen, by rw [hv]; exact hp⟩
  · rintro ⟨k, hlen, hp⟩
    have hne : assocLookup m k ≠ [] := by
      intro h
      rw [h] at hlen
      simp at hlen
    exact ⟨assocLookup m k, List.mem_map.mpr ⟨(k, assocLookup m k),
      mem_of_assocLookup_ne m k hne, rfl⟩, hlen, hp⟩

theorem mem_conflictingPaths {ps : List (List ℤ)} {p : List ℤ} :
    p ∈ conflictingPaths ps ↔
      (∃ k, 1 < (startBucketSpec ps k).length ∧ p ∈ startBucketSpec ps k) ∨
      (∃ k, 1 < (endBucketSpec ps k).length ∧ p ∈ endBucketSpec ps k) := by
  obtain ⟨hnd1, hnd2⟩ := nodup_keys_buildDicts ps
  have hstart : ∀ k, assocLookup (buildDicts ps).1 k = startBucketSpec ps k := fun k => by
    have h := (assocLookup_buildDicts ps ([], []) k).1
    simpa [buildDicts, assocLookup] using h
  have hend : ∀ k, assocLookup (buildDicts ps).2 k = endBucketSpec ps k := fun k => by
    have h := (assocLookup_buildDicts ps ([], []) k).2
    simpa [buildDicts, assocLookup] using h
  unfold conflictingPaths conflictDedupe
  dsimp only
  rw [mem_conflictDedupe_general, mem_conflictGather, mem_conflictGather]
  simp only [List.not_mem_nil, false_or]
  rw [values_conflict_iff hnd1, values_conflict_iff hnd2]
  simp only [hstart, hend]

theorem mem_finalBridgePaths_iff {ps : List (List ℤ)} {p : List ℤ} (hp : p ∈ ps) :
    (p ∉ finalBridgePaths ps ↔
      (1 < startLoad ps p.headI ∨ 1 < startLoad ps (-p.getLastI) ∨
       1 < endLoad ps p.getLastI ∨ 1 < endLoad ps (-p.headI))) := by
  have hmem : p ∉ finalBridgePaths ps ↔ p ∈ conflictingPaths ps := by
    unfold finalBridgePaths
    rw [List.mem_filter]
    simp [hp]
  rw [hmem, mem_conflictingPaths]
  constructor
  · rintro (⟨k, hlen, hpk⟩ | ⟨k, hlen, hpk⟩)
    · obtain ⟨_, hk | hk⟩ := mem_startBucketSpec.mp hpk <;> subst hk <;>
        rw [length_startBucketSpec] at hlen
      · exact Or.inl hlen
      · exact Or.inr (Or.inl hlen)
    · obtain ⟨_, hk | hk⟩ := mem_endBucketSpec.mp hpk <;> subst hk <;>
        rw [length_endBucketSpec] at hlen
      · exact Or.inr (Or.inr (Or.inl hlen))
      · exact Or.inr (Or.inr (Or.inr hlen))
  · rintro (h | h | h | h)
    · exact Or.inl ⟨p.headI, by rw [length_startBucketSpec]; exact h,
        mem_startBucketSpec.mpr ⟨hp, Or.inl rfl⟩⟩
    · exact Or.inl ⟨-p.getLastI, by rw [length_startBucketSpec]; exact h,
        mem_startBucketSpec.mpr ⟨hp, Or.inr rfl⟩⟩
    · exact Or.inr ⟨p.getLastI, by rw [length_endBucketSpec]; exact h,
        mem_endBucketSpec.mpr ⟨hp, Or.inl rfl⟩⟩
    · exact Or.inr ⟨-p.headI, by rw [length_endBucketSpec]; exact h,
        mem_endBucketSpec.mpr ⟨hp, Or.inr rfl⟩⟩

/-! ## Properties of per-read alignment selection -/

theorem processGroup_subset {ao : ℕ} {v : List ReadAlignment} {x : ReadAlignment}
    (hx : x ∈ processGroup ao v) : x ∈ v := by
  unfold processGroup at hx
  have hperm := List.perm_insertionSort scaledScoreDesc v
  rcases hs : v.insertionSort scaledScoreDesc with _ | ⟨best, rest⟩ <;> rw [hs] at hx <;>
    dsimp only at hx
  · exact absurd hx (List.not_mem_nil x)
  · have hbest : best ∈ v := hperm.mem_iff.mp (hs ▸ List.mem_cons_self best rest)
    rcases rest with _ | ⟨second, rest'⟩
    · obtain rfl := List.mem_singleton.mp hx
      exact hbest
    · have hsecond : second ∈ v := hperm.mem_iff.mp
        (hs ▸ List.mem_cons_of_mem best (List.mem_cons_self second rest'))
      dsimp only at hx
      split_ifs at hx
      · rcases List.mem_cons.mp hx with rfl | hx
        · exact hbest
        · obtain rfl := List.mem_singleton.mp hx
          exact hsecond
      · obtain rfl := List.mem_singleton.mp hx
        exact hbest

theorem processGroup_length_le {ao : ℕ} (v : List ReadAlignment) :
    (processGroup ao v).length ≤ 2 := by
  unfold processGroup
  rcases v.insertionSort scaledScoreDesc with _ | ⟨best, _ | ⟨second, rest'⟩⟩ <;> dsimp only
  · norm_num
  · norm_num
  · split_ifs <;> norm_num

theorem processGroup_best {ao : ℕ} {v : List ReadAlignment} (hv : v ≠ []) :
    ∃ best rest, processGroup ao v = best :: rest ∧ best ∈ v ∧
      ∀ x ∈ v, x.scaledScore ≤ best.scaledScore := by
  have hperm := List.perm_insertionSort scaledScoreDesc v
  have hsorted := List.sorted_insertionSort scaledScoreDesc v
  rcases hs : v.insertionSort scaledScoreDesc with _ | ⟨best, rest⟩
  · exfalso
    apply hv
    have hlen := hperm.length_eq
    rw [hs] at hlen
    exact List.length_eq_zero.mp hlen.symm
  · rw [hs] at hsorted
    have hmax : ∀ x ∈ v, x.scaledScore ≤ best.scaledScore := by
      intro x hx
      have hx2 : x ∈ best :: rest := hs ▸ hperm.mem_iff.mpr hx
      rcases List.mem_cons.mp hx2 with rfl | hx2
      · exact le_refl _
      · exact (List.pairwise_cons.mp hsorted).1 x hx2
    have hbest : best ∈ v := hperm.mem_iff.mp (hs ▸ List.mem_cons_self best rest)
    unfold processGroup
    rw [hs]
    rcases rest with _ | ⟨second, rest'⟩ <;> dsimp only
    · exact ⟨best, [], rfl, hbest, hmax⟩
    · split_ifs
      · exact ⟨best, [second], rfl, hbest, hmax⟩
      · exact ⟨best, [], rfl, hbest, hmax⟩

theorem processGroup_pair {ao : ℕ} {v : List ReadAlignment} {b₁ b₂ : ReadAlignment}
    (h : processGroup ao v = [b₁, b₂]) :
    b₂.scaledScore ≤ b₁.scaledScore ∧
    b₁.alignedRefLength + b₂.alignedRefLength ≤ b₁.refLen + ao ∧
    ((0 < b₁.refStartPos ∧ 0 < b₂.refEndGap) ∨ (0 < b₁.refEndGap ∧ 0 < b₂.refStartPos)) := by
  unfold processGroup at h
  have hsorted := List.sorted_insertionSort scaledScoreDesc v
  rcases hs : v.insertionSort scaledScoreDesc with _ | ⟨best, _ | ⟨second, rest'⟩⟩ <;>
    rw [hs] at h hsorted <;> dsimp only at h
  · exact absurd h (by simp)
  · exact absurd h (by simp)
  · split_ifs at h with hcond
    · simp only [List.cons.injEq, and_true] at h
      obtain ⟨rfl, rfl⟩ := h
      refine ⟨?_, hcond.1, hcond.2⟩
      exact (List.pairwise_cons.mp hsorted).1 second (List.mem_cons_self second rest')
    · exact absurd h (by simp)

theorem assocLookup_buildScGroups (al : List ReadAlignment) (scSet : List ℕ) (ms : ℚ) :
    ∀ (m : List (ℕ × List ReadAlignment)) (k : ℕ),
      assocLookup (al.foldl
        (fun m alignment =>
          if alignment.refNum ∈ scSet then
            if alignment.scaledScore < ms then m
            else assocAppend m alignment.refNum alignment
          else m) m) k =
      assocLookup m k ++ al.filter
        (fun a => decide (a.refNum = k ∧ a.refNum ∈ scSet ∧ ¬ a.scaledScore < ms)) := by
  induction al with
  | nil => intro m k; simp
  | cons a al ih =>
    intro m k
    rw [List.foldl_cons, List.filter_cons]
    by_cases hin : a.refNum ∈ scSet
    · by_cases hsc : a.scaledScore < ms
      · rw [if_pos hin, if_pos hsc, ih,
          if_neg (by simp only [decide_eq_true_eq]; exact fun hc => hc.2.2 hsc)]
      · by_cases hk : a.refNum = k
        · subst hk
          rw [if_pos hin, if_neg hsc, ih, assocLookup_assocAppend, if_pos rfl,
            if_pos (by simp [hin, hsc])]
          simp
        · rw [if_pos hin, if_neg hsc, ih, assocLookup_assocAppend,
            if_neg (fun hc : k = a.refNum => hk hc.symm),
            if_neg (by simp only [decide_eq_true_eq]; exact fun hc => hk hc.1)]
    · rw [if_neg hin, ih,
        if_neg (by simp only [decide_eq_true_eq]; exact fun hc => hin hc.2.1)]

theorem assocLookup_buildScGroups_eq (al : List ReadAlignment) (scSet : List ℕ) (ms : ℚ)
    (k : ℕ) :
    assocLookup (buildScGroups al scSet ms) k =
      al.filter (fun a => decide (a.refNum = k ∧ a.refNum ∈ scSet ∧ ¬ a.scaledScore < ms)) := by
  have h := assocLookup_buildScGroups al scSet ms [] k
  simpa [buildScGroups, assocLookup] using h

theorem nodup_keys_buildScGroups (al : List ReadAlignment) (scSet : List ℕ) (ms : ℚ) :
    ((buildScGroups al scSet ms).map Prod.fst).Nodup := by
  unfold buildScGroups
  have general : ∀ (l : List ReadAlignment) (m : List (ℕ × List ReadAlignment)),
      (m.map Prod.fst).Nodup →
      ((l.foldl (fun m alignment =>
          if alignment.refNum ∈ scSet then
            if alignment.scaledScore < ms then m
            else assocAppend m alignment.refNum alignment
          else m) m).map Prod.fst).Nodup := by
    intro l
    induction l with
    | nil => exact fun m h => h
    | cons a l ih =>
      intro m h
      rw [List.foldl_cons]
      apply ih
      by_cases hin : a.refNum ∈ scSet
      · by_cases hsc : a.scaledScore < ms
        · rwa [if_pos hin, if_pos hsc]
        · rw [if_pos hin, if_neg hsc]
          exact nodup_keys_assocAppend h _ _
      · rwa [if_neg hin]
  exact general al [] (by simp)

theorem refNum_of_mem_group {al : List ReadAlignment} {scSet : List ℕ} {ms : ℚ}
    {kv : ℕ × List ReadAlignment} (hkv : kv ∈ buildScGroups al scSet ms)
    {x : ReadAlignment} (hx : x ∈ kv.2) : x.refNum = kv.1 := by
  have hv := @assocLookup_of_mem ℕ ReadAlignment _ (buildScGroups al scSet ms)
    (nodup_keys_buildScGroups al scSet ms) kv.1 kv.2 (by exact hkv)
  rw [← hv, assocLookup_buildScGroups_eq] at hx
  have := List.of_mem_filter hx
  simp only [decide_eq_true_eq] at this
  exact this.1

theorem getSingleCopyAlignments_count_le (al : List ReadAlignment) (scSet : List ℕ)
    (ao : ℕ) (ms : ℚ) (r : ℕ) :
    (getSingleCopyAlignments al scSet ao ms).countP (fun a => decide (a.refNum = r)) ≤ 2 := by
  unfold getSingleCopyAlignments
  have hnd := nodup_keys_buildScGroups al scSet ms
  have hsub : ∀ kv ∈ buildScGroups al scSet ms,
      ∀ x ∈ processGroup ao kv.2, x.refNum = kv.1 :=
    fun kv hkv x hx => refNum_of_mem_group hkv (processGroup_subset hx)
  revert hnd hsub
  generalize buildScGroups al scSet ms = groups
  induction groups with
  | nil => intro _ _; simp
  | cons kv rest ih =>
    intro hnd hsub
    rw [List.map_cons, List.nodup_cons] at hnd
    rw [List.flatMap_cons, List.countP_append]
    by_cases hk : kv.1 = r
    · have hrest : (rest.flatMap fun kv => processGroup ao kv.2).countP
          (fun a => decide (a.refNum = r)) = 0 := by
        rw [List.countP_eq_zero]
        intro x hx
        obtain ⟨kv', hkv', hxkv'⟩ := List.mem_flatMap.mp hx
        have hx1 : x.refNum = kv'.1 := hsub kv' (List.mem_cons_of_mem _ hkv') x hxkv'
        have hne : kv'.1 ≠ r := by
          rintro rfl
          exact hnd.1 (hk ▸ List.mem_map.mpr ⟨kv', hkv', rfl⟩)
        simp [hx1, hne]
      rw [hrest]
      have := @processGroup_length_le ao kv.2
      have := @List.countP_le_length ReadAlignment (fun a => decide (a.refNum = r))
        (processGroup ao kv.2)
      omega
    · have hhead : (processGroup ao kv.2).countP (fun a => decide (a.refNum = r)) = 0 := by
        rw [List.countP_eq_zero]
        intro x hx
        have := hsub kv (List.mem_cons_self _ _) x hx
        simp [this, hk]
      rw [hhead]
      exact Nat.zero_add _ ▸ ih hnd.2 (fun kv' hkv' => hsub kv' (List.mem_cons_of_mem _ hkv'))

theorem getSingleCopyAlignments_best_retained {al : List ReadAlignment} {scSet : List ℕ}
    {ao : ℕ} {ms : ℚ} {r : ℕ} {a : ReadAlignment}
    (ha : a ∈ al) (hr : a.refNum = r) (hin : r ∈ scSet) (hms : ms ≤ a.scaledScore) :
    ∃ b ∈ getSingleCopyAlignments al scSet ao ms,
      b.refNum = r ∧ a.scaledScore ≤ b.scaledScore := by
  have hlookup := assocLookup_buildScGroups_eq al scSet ms r
  have hmemv : a ∈ assocLookup (buildScGroups al scSet ms) r := by
    rw [hlookup]
    refine List.mem_filter.mpr ⟨ha, ?_⟩
    simp only [decide_eq_true_eq]
    exact ⟨hr, hr ▸ hin, not_lt.mpr hms⟩
  have hne : assocLookup (buildScGroups al scSet ms) r ≠ [] :=
    List.ne_nil_of_mem hmemv
  have hkv := mem_of_assocLookup_ne (buildScGroups al scSet ms) r hne
  obtain ⟨best, rest, hpg, hbestv, hmax⟩ :=
    @processGroup_best ao (assocLookup (buildScGroups al scSet ms) r) hne
  refine ⟨best, ?_, ?_, hmax a hmemv⟩
  · unfold getSingleCopyAlignments
    exact List.mem_flatMap.mpr ⟨(r, assocLookup (buildScGroups al scSet ms) r), hkv,
      hpg ▸ List.mem_cons_self best rest⟩
  · have := hbestv
    rw [hlookup] at this
    have := List.of_mem_filter this
    simp only [decide_eq_true_eq] at this
    exact this.1

theorem filter_flatMap_pair (ao : ℕ) (r : ℕ) (b₁ b₂ : ReadAlignment) :
    ∀ (groups : List (ℕ × List ReadAlignment)),
      (groups.map Prod.fst).Nodup →
      (∀ kv ∈ groups, ∀ x ∈ processGroup ao kv.2, x.refNum = kv.1) →
      (groups.flatMap fun kv => processGroup ao kv.2).filter
        (fun a => decide (a.refNum = r)) = [b₁, b₂] →
      ∃ kv ∈ groups, processGroup ao kv.2 = [b₁, b₂] := by
  intro groups
  induction groups with
  | nil => intro _ _ h; simp at h
  | cons kv rest ih =>
    intro hnd hsub h
    rw [List.map_cons, List.nodup_cons] at hnd
    rw [List.flatMap_cons, List.filter_append] at h
    by_cases hk : kv.1 = r
    · have hall : (processGroup ao kv.2).filter (fun a => decide (a.refNum = r)) =
          processGroup ao kv.2 := by
        rw [List.filter_eq_self]
        intro x hx
        simp [hsub kv (List.mem_cons_self _ _) x hx, hk]
      have hrest : (rest.flatMap fun kv => processGroup ao kv.2).filter
          (fun a => decide (a.refNum = r)) = [] := by
        rw [List.filter_eq_nil_iff]
        intro x hx
        obtain ⟨kv', hkv', hxkv'⟩ := List.mem_flatMap.mp hx
        have hx1 := hsub kv' (List.mem_cons_of_mem _ hkv') x hxkv'
        have hne : kv'.1 ≠ r := by
          rintro rfl
          exact hnd.1 (hk ▸ List.mem_map.mpr ⟨kv', hkv', rfl⟩)
        simp [hx1, hne]
      rw [hall, hrest, List.append_nil] at h
      exact ⟨kv, List.mem_cons_self _ _, h⟩
    · have hhead : (processGroup ao kv.2).filter (fun a => decide (a.refNum = r)) = [] := by
        rw [List.filter_eq_nil_iff]
        intro x hx
        simp [hsub kv (List.mem_cons_self _ _) x hx, hk]
      rw [hhead, List.nil_append] at h
      obtain ⟨kv', hkv', hpg⟩ :=
        ih hnd.2 (fun kv' hkv' => hsub kv' (List.mem_cons_of_mem _ hkv')) h
      exact ⟨kv', List.mem_cons_of_mem _ hkv', hpg⟩

theorem getSingleCopyAlignments_pair {al : List ReadAlignment} {scSet : List ℕ}
    {ao : ℕ} {ms : ℚ} {r : ℕ} {b₁ b₂ : ReadAlignment}
    (h : (getSingleCopyAlignments al scSet ao ms).filter
      (fun a => decide (a.refNum = r)) = [b₁, b₂]) :
    b₂.scaledScore ≤ b₁.scaledScore ∧
    b₁.alignedRefLength + b₂.alignedRefLength ≤ b₁.refLen + ao ∧
    ((0 < b₁.refStartPos ∧ 0 < b₂.refEndGap) ∨ (0 < b₁.refEndGap ∧ 0 < b₂.refStartPos)) := by
  unfold getSingleCopyAlignments at h
  obtain ⟨kv, hkv, hpg⟩ := filter_flatMap_pair ao r b₁ b₂ (buildScGroups al scSet ms)
    (nodup_keys_buildScGroups al scSet ms)
    (fun kv hkv x hx => refNum_of_mem_group hkv (processGroup_subset hx)) h
  exact processGroup_pair hpg

theorem allowedOverlap_le_claimed (overlap : ℕ) :
    (allowedOverlap overlap : ℤ) ≤ allowedOverlapClaimed overlap := by
  unfold allowedOverlap allowedOverlapClaimed
  have h1 : ((11 * overlap / 10 : ℕ) : ℤ) ≤ ⌊(11 * overlap : ℚ) / 10⌋ := by
    rw [Int.le_floor]
    have hle : ((11 * overlap / 10 : ℕ) : ℚ) ≤ (11 * overlap : ℚ) / 10 := by
      calc ((11 * overlap / 10 : ℕ) : ℚ) ≤ ((11 * overlap : ℕ) : ℚ) / ((10 : ℕ) : ℚ) :=
            Nat.cast_div_le
        _ = (11 * overlap : ℚ) / 10 := by push_cast; ring
    calc (((11 * overlap / 10 : ℕ) : ℤ) : ℚ) = ((11 * overlap / 10 : ℕ) : ℚ) := by norm_cast
      _ ≤ (11 * overlap : ℚ) / 10 := hle
  have h2 : ⌊(11 * overlap : ℚ) / 10⌋ ≤ round ((11 * overlap : ℚ) / 10) := by
    rw [round_eq]
    exact Int.floor_mono (by linarith)
  exact h1.trans h2

/-! ## The claims -/

/-- Claim C1: the specification says the expected depth of each distinct
segment of a self-contained internal path is its occurrence count in the
path times the bridge depth.  The source instead counts occurrences in the
DEDUPLICATED list (always 1).  Evaluation at the failing input: internal path
`[4, 4]` (segment 4 twice, depth 25, bridge depth 10) gives factor
`agreement(25, 1*10) = 2/5` and quality 8, while the claimed rule gives
`agreement(25, 2*10) = 4/5` (quality 16). -/
theorem c1_expected_depth_evaluation :
    selfContainedFactors exSpadesGraph [4, 4] 10 = some (2/5) ∧
    selfContainedFactorsSpec exSpadesGraph [4, 4] 10 = some (4/5) ∧
    pathIsSelfContained exSpadesGraph [4, 4] 1 2 = true ∧
    (spadesContigBridge exSpadesGraph [1, 4, 4, 2]).map SpadesContigBridgeData.quality =
      some 8 ∧
    (2/5 : ℚ) ≠ 4/5 := by
  refine ⟨by with_unfolding_all decide, by with_unfolding_all decide, by decide,
    by with_unfolding_all decide, by with_unfolding_all decide⟩

/-- Claim C2 (amended): bridge quality lies in `[0, base]` — 20 for contig
bridges (whenever the constructor succeeds), 10 for loop-unrolling bridges
PROVIDED the combined loop-count estimate is non-negative (the claim as
stated is false: a negative estimate makes the quality negative), and
exactly 1 for the unfinished long-read bridge constructor. -/
theorem c2_quality_bounds (g : Graph) (p : List ℤ) (start end_ middle repeat_ : ℤ) (μ : ℚ) :
    (Option.elim (spadesContigBridge g p) True fun b => 0 ≤ b.quality ∧ b.quality ≤ 20) ∧
    (loopMeanCount g start end_ middle repeat_ = some μ → 0 ≤ μ →
      Option.elim (loopUnrollingBridge g start end_ middle repeat_) True
        fun b => 0 ≤ b.quality ∧ b.quality ≤ 10) ∧
    mkLongReadBridge.quality = 1 := by
  refine ⟨?_, ?_, rfl⟩
  · rcases h : spadesContigBridge g p with _ | b
    · exact trivial
    · exact spadesContigBridge_quality_mem g p b h
  · intro hμ hμ0
    rcases h : loopUnrollingBridge g start end_ middle repeat_ with _ | b
    · exact trivial
    · exact loopUnrollingBridge_quality_mem g start end_ middle repeat_ μ hμ hμ0 b h

theorem c2_quality_bounds_witness :
    loopMeanCount exWholeLoopGraph 1 2 3 4 = some 1 ∧ (0 : ℚ) ≤ 1 ∧
    (Option.elim (loopUnrollingBridge exWholeLoopGraph 1 2 3 4) True
      fun b => 0 ≤ b.quality ∧ b.quality ≤ 10) ∧
    (Option.elim (spadesContigBridge exSpadesGraph [1, 4, 4, 2]) True
      fun b => 0 ≤ b.quality ∧ b.quality ≤ 20) :=
  ⟨by with_unfolding_all decide, by decide,
   (c2_quality_bounds exWholeLoopGraph [] 1 2 3 4 1).2.1 (by with_unfolding_all decide)
     (by decide),
   (c2_quality_bounds exSpadesGraph [1, 4, 4, 2] 1 2 3 4 1).1⟩

/-- Claim C2 counterexample: with endpoint depths 10 (positive, positive
lengths) but a shallow repeat segment, the mean loop count is `-7/20` and the
constructed loop-unrolling bridge has quality `-7/2 < 0`. -/
theorem c2_negative_quality_counterexample :
    (loopUnrollingBridge exShallowLoopGraph 1 2 3 4).map LoopUnrollingBridgeData.quality =
      some ((-7/2 : ℚ) : ℝ) ∧ ((-7/2 : ℚ) : ℝ) < 0 := by
  constructor
  · have hag : getNumAgreement (exShallowLoopGraph.segments (Int.natAbs 1)).depth
        (exShallowLoopGraph.segments (Int.natAbs 2)).depth = some 1 := by
      with_unfolding_all decide
    have hmean : getMeanDepth (exShallowLoopGraph.segments (Int.natAbs 1))
        (exShallowLoopGraph.segments (Int.natAbs 2)) = some 10 := by
      with_unfolding_all decide
    have hloop : loopMeanCount exShallowLoopGraph 1 2 3 4 = some (-7/20 : ℚ) := by
      with_unfolding_all decide
    have hclose : closenessToWholeNum (-7/20 : ℚ) = -7/20 := by with_unfolding_all decide
    have hn : loopCount (-7/20 : ℚ) = 1 := by with_unfolding_all decide
    simp only [loopUnrollingBridge, bind, hag, hmean, hloop, Option.some_bind,
      Option.pure_def, Option.map_some', hclose, hn]
    congr 1
    push_cast
    norm_num [Real.sqrt_one]
  · norm_num

/-- Claim C3: the loop count is 1 with closeness equal to the estimate when
the combined estimate is below 1; otherwise the loop count is the rounded
estimate with closeness `1 - 2*min(frac, 1-frac)` (0 at exactly 2.5), and
the constructed graph path is `[repeat]` followed by `loop_count` copies of
`[middle, repeat]`. -/
theorem c3_loop_count_closeness_path (e : ℚ) (g : Graph)
    (start end_ middle repeat_ : ℤ) (μ : ℚ) :
    (e < 1 → loopCount e = 1 ∧ closenessToWholeNum e = e) ∧
    (1 ≤ e → loopCount e = round e ∧
      closenessToWholeNum e = 1 - 2 * min (Int.fract e) (1 - Int.fract e)) ∧
    closenessToWholeNum (5/2 : ℚ) = 0 ∧
    (loopMeanCount g start end_ middle repeat_ = some μ →
      Option.elim (loopUnrollingBridge g start end_ middle repeat_) True fun b =>
        b.graphPath =
          [repeat_] ++ (List.replicate (loopCount μ).toNat [middle, repeat_]).flatten) := by
  refine ⟨?_, ?_, by with_unfolding_all decide, ?_⟩
  · intro h
    unfold loopCount closenessToWholeNum
    rw [if_pos h, if_pos h]
    exact ⟨rfl, rfl⟩
  · intro h
    have hnl : ¬ e < 1 := not_lt.mpr h
    unfold loopCount closenessToWholeNum pythonRound
    rw [if_neg hnl, if_neg hnl, if_neg (not_lt.mpr (by linarith : (0:ℚ) ≤ e)), round_eq]
    refine ⟨rfl, ?_⟩
    rw [Int.self_sub_floor]
  · intro hμ
    rcases h : loopUnrollingBridge g start end_ middle repeat_ with _ | b
    · exact trivial
    · have hpath := loopUnrollingBridge_graphPath g start end_ middle repeat_ μ hμ b h
      show b.graphPath = _
      rw [hpath, loopGraphPath_eq]

theorem c3_witness :
    (1 : ℚ) ≤ 5/2 ∧
    (loopCount (5/2 : ℚ) = round (5/2 : ℚ) ∧
      closenessToWholeNum (5/2 : ℚ) =
        1 - 2 * min (Int.fract (5/2 : ℚ)) (1 - Int.fract (5/2 : ℚ))) ∧
    loopMeanCount exWholeLoopGraph 1 2 3 4 = some 1 ∧
    (Option.elim (loopUnrollingBridge exWholeLoopGraph 1 2 3 4) True fun b =>
      b.graphPath = [(4 : ℤ)] ++ (List.replicate (loopCount (1 : ℚ)).toNat [(3 : ℤ), 4]).flatten) :=
  ⟨by with_unfolding_all decide,
   (c3_loop_count_closeness_path (5/2) exWholeLoopGraph 1 2 3 4 1).2.1
     (by with_unfolding_all decide),
   by with_unfolding_all decide,
   (c3_loop_count_closeness_path (5/2) exWholeLoopGraph 1 2 3 4 1).2.2.2
     (by with_unfolding_all decide)⟩

/-- Claim C4 (amended): `get_num_agreement` returns a value in `[0, 1]`
whenever it returns, is 1 on the double zero, is computed on the negated pair
when both inputs are negative, is 0 on strictly opposite signs — but it is
NOT total: it raises `ZeroDivisionError` (modelled by `none`) exactly when
one input is negative and the other is zero. -/
theorem c4_agreement_structure (a b : ℚ) :
    (getNumAgreement a b = none ↔ (a < 0 ∧ b = 0) ∨ (a = 0 ∧ b < 0)) ∧
    (∀ v, getNumAgreement a b = some v → 0 ≤ v ∧ v ≤ 1) ∧
    (a = 0 ∧ b = 0 → getNumAgreement a b = some 1) ∧
    (a < 0 ∧ b < 0 → getNumAgreement a b = getNumAgreement (-a) (-b)) ∧
    (a * b < 0 → getNumAgreement a b = some 0) := by
  refine ⟨getNumAgreement_eq_none_iff a b, fun v hv => getNumAgreement_mem_unit hv,
    ?_, ?_, ?_⟩
  · rintro ⟨rfl, rfl⟩
    simp [getNumAgreement]
  · rintro ⟨ha, hb⟩
    have h₁ : ¬(a = 0 ∧ b = 0) := fun hc => absurd hc.1 (ne_of_lt ha)
    have h₂ : ¬(-a = 0 ∧ -b = 0) := fun hc => absurd hc.1 (neg_ne_zero.mpr (ne_of_lt ha))
    have h₃ : ¬(-a < 0 ∧ -b < 0) := fun hc => absurd hc.1 (not_lt.mpr (neg_pos.mpr ha).le)
    unfold getNumAgreement
    simp only [if_neg h₁, if_neg h₂, if_pos (show a < 0 ∧ b < 0 from ⟨ha, hb⟩), if_neg h₃]
  · intro hab
    have h₁ : ¬(a = 0 ∧ b = 0) := by
      rintro ⟨rfl, rfl⟩
      simp at hab
    have h₂ : ¬(a < 0 ∧ b < 0) := by
      rintro ⟨ha, hb⟩
      exact absurd hab (not_lt.mpr (mul_pos_of_neg_of_neg ha hb).le)
    simp [getNumAgreement, h₁, h₂, hab]

/-- Claim C4 counterexample: with one negative input and one zero input the
code divides by zero instead of returning a value in `[0, 1]`. -/
theorem c4_division_by_zero_counterexample : getNumAgreement (-1) 0 = none := by
  with_unfolding_all decide

theorem c4_witness :
    getNumAgreement 3 6 = some (1/2) ∧ (0 ≤ (1/2 : ℚ) ∧ (1/2 : ℚ) ≤ 1) ∧
    (getNumAgreement 3 6 = none ↔ ((3 : ℚ) < 0 ∧ (6 : ℚ) = 0) ∨ ((3 : ℚ) = 0 ∧ (6 : ℚ) < 0)) :=
  ⟨by with_unfolding_all decide,
   (c4_agreement_structure 3 6).2.1 (1/2) (by with_unfolding_all decide),
   (c4_agreement_structure 3 6).1⟩

/-- Claim C5 (amended): a deduplicated candidate path is excluded from the
final bridge paths if and only if one of its four index keys (start, end,
negated end, negated start) indexes a bucket holding more than one ENTRY,
counted with multiplicity — a lone path whose start equals its negated end
occupies its bucket twice by itself and is dropped.  Two paths sharing a
literal start are both dropped; a lone candidate with distinct keys is
kept. -/
theorem c5_conflict_exclusion (ps : List (List ℤ)) (p : List ℤ) (hp : p ∈ ps) :
    (p ∉ finalBridgePaths ps ↔
      1 < startLoad ps p.headI ∨ 1 < startLoad ps (-p.getLastI) ∨
      1 < endLoad ps p.getLastI ∨ 1 < endLoad ps (-p.headI)) ∧
    finalBridgePaths [[1, 2, 5], [1, 3, 5]] = [] ∧
    finalBridgePaths [[1, 2, 5]] = [[1, 2, 5]] :=
  ⟨mem_finalBridgePaths_iff hp, by decide, by decide⟩

/-- Claim C5 counterexample: the lone candidate `[1, 2, -1]` shares no key
with any DISTINCT other path, yet it is excluded, because its own start key 1
equals its negated end key and its bucket therefore holds two entries. -/
theorem c5_lone_path_counterexample :
    [(1 : ℤ), 2, -1] ∈ [[(1 : ℤ), 2, -1]] ∧
    finalBridgePaths [[(1 : ℤ), 2, -1]] = [] := by decide

theorem c5_witness :
    [(1 : ℤ), 2, 5] ∈ [[(1 : ℤ), 2, 5], [1, 3, 5]] ∧
    ([(1 : ℤ), 2, 5] ∉ finalBridgePaths [[(1 : ℤ), 2, 5], [1, 3, 5]] ↔
      1 < startLoad [[(1 : ℤ), 2, 5], [1, 3, 5]] ([(1 : ℤ), 2, 5]).headI ∨
      1 < startLoad [[(1 : ℤ), 2, 5], [1, 3, 5]] (-([(1 : ℤ), 2, 5]).getLastI) ∨
      1 < endLoad [[(1 : ℤ), 2, 5], [1, 3, 5]] ([(1 : ℤ), 2, 5]).getLastI ∨
      1 < endLoad [[(1 : ℤ), 2, 5], [1, 3, 5]] (-([(1 : ℤ), 2, 5]).headI)) :=
  ⟨by decide, (c5_conflict_exclusion [[(1 : ℤ), 2, 5], [1, 3, 5]] [(1 : ℤ), 2, 5]
    (by decide)).1⟩

/-- Claim C6: deduplication is orientation-invariant — for every candidate in
the list, exactly one representative of its reverse-complement class is
stored, and no stored path has both its first and last elements negative. -/
theorem c6_dedup_canonical (cs : List (List ℤ)) (c : List ℤ) (hc : c ∈ cs) :
    (dedupePaths cs).countP (rcClass c) = 1 ∧
    (dedupePaths cs).all (fun q => !bothEndsNegative q) = true := by
  constructor
  · exact foldl_dedupeStep_countP cs [] (by simp) (Or.inl hc)
  · rw [List.all_eq_true]
    intro q hq
    have h := foldl_dedupeStep_ends cs [] (by simp) q hq
    simp [h]

theorem c6_witness :
    [(3 : ℤ), -5, 7] ∈ [[(3 : ℤ), -5, 7], [-7, 5, -3]] ∧
    (dedupePaths [[(3 : ℤ), -5, 7], [-7, 5, -3]]).countP (rcClass [(3 : ℤ), -5, 7]) = 1 ∧
    (dedupePaths [[(3 : ℤ), -5, 7], [-7, 5, -3]]).all (fun q => !bothEndsNegative q) = true :=
  ⟨by decide,
   (c6_dedup_canonical [[(3 : ℤ), -5, 7], [-7, 5, -3]] [(3 : ℤ), -5, 7] (by decide)).1,
   (c6_dedup_canonical [[(3 : ℤ), -5, 7], [-7, 5, -3]] [(3 : ℤ), -5, 7] (by decide)).2⟩

/-- Claim C7: per-read alignment selection retains a best-scoring alignment
to each single-copy reference at or above the threshold, never retains more
than two alignments per reference, and retains a second alignment to the same
reference only when the combined aligned length fits within the reference
length plus `round(1.1 * overlap)` (the code truncates before rounding, which
is stricter, so the stated bound is a valid necessary condition) and the two
alignments cover opposite ends of the reference. -/
theorem c7_alignment_selection (al : List ReadAlignment) (scSet : List ℕ) (overlap : ℕ)
    (ms : ℚ) (r : ℕ) :
    ((getSingleCopyAlignments al scSet (allowedOverlap overlap) ms).countP
        (fun a => decide (a.refNum = r)) ≤ 2) ∧
    (∀ a ∈ al, a.refNum = r → r ∈ scSet → ms ≤ a.scaledScore →
      ∃ b ∈ getSingleCopyAlignments al scSet (allowedOverlap overlap) ms,
        b.refNum = r ∧ a.scaledScore ≤ b.scaledScore) ∧
    (∀ b₁ b₂, (getSingleCopyAlignments al scSet (allowedOverlap overlap) ms).filter
        (fun a => decide (a.refNum = r)) = [b₁, b₂] →
      (b₁.alignedRefLength + b₂.alignedRefLength : ℤ) ≤
          (b₁.refLen : ℤ) + allowedOverlapClaimed overlap ∧
      ((0 < b₁.refStartPos ∧ 0 < b₂.refEndGap) ∨
       (0 < b₁.refEndGap ∧ 0 < b₂.refStartPos))) := by
  refine ⟨getSingleCopyAlignments_count_le al scSet (allowedOverlap overlap) ms r,
    fun a ha hr hin hms => getSingleCopyAlignments_best_retained ha hr hin hms, ?_⟩
  intro b₁ b₂ h
  obtain ⟨hsc, hlen, hends⟩ := getSingleCopyAlignments_pair h
  refine ⟨?_, hends⟩
  have hao := allowedOverlap_le_claimed overlap
  have hcast : (b₁.alignedRefLength + b₂.alignedRefLength : ℤ) ≤
      (b₁.refLen : ℤ) + (allowedOverlap overlap : ℤ) := by exact_mod_cast hlen
  linarith

theorem c7_witness :
    exAlignmentBest ∈ [exAlignmentBest, exAlignmentSecond] ∧
    exAlignmentBest.refNum = 1 ∧ (1 : ℕ) ∈ [1] ∧
    (0 : ℚ) ≤ exAlignmentBest.scaledScore ∧
    (∃ b ∈ getSingleCopyAlignments [exAlignmentBest, exAlignmentSecond] [1]
        (allowedOverlap 5) 0, b.refNum = 1 ∧ exAlignmentBest.scaledScore ≤ b.scaledScore) ∧
    (getSingleCopyAlignments [exAlignmentBest, exAlignmentSecond] [1]
        (allowedOverlap 5) 0).filter (fun a => decide (a.refNum = 1)) =
      [exAlignmentBest, exAlignmentSecond] ∧
    ((exAlignmentBest.alignedRefLength + exAlignmentSecond.alignedRefLength : ℤ) ≤
        (exAlignmentBest.refLen : ℤ) + allowedOverlapClaimed 5 ∧
      ((0 < exAlignmentBest.refStartPos ∧ 0 < exAlignmentSecond.refEndGap) ∨
       (0 < exAlignmentBest.refEndGap ∧ 0 < exAlignmentSecond.refStartPos))) :=
  ⟨by decide, by decide, by decide, by decide,
   (c7_alignment_selection [exAlignmentBest, exAlignmentSecond] [1] 5 0 1).2.1
     exAlignmentBest (by decide) (by decide) (by decide) (by decide),
   by decide,
   (c7_alignment_selection [exAlignmentBest, exAlignmentSecond] [1] 5 0 1).2.2
     exAlignmentBest exAlignmentSecond (by decide)⟩

/-- Claim C8: `flip_segment_order` keeps a both-positive pair, flips a
both-negative pair, flips a mixed pair exactly when the negative value has
the larger magnitude (so `(5, -6)` flips to `(6, -5)`), and on nonzero inputs
the canonical pair of `(a, b)` equals the canonical pair of `(-b, -a)`. -/
theorem c8_flip_segment_order (a b : ℤ) (ha : a ≠ 0) (hb : b ≠ 0) :
    (0 < a ∧ 0 < b → flipSegmentOrder a b = ((a, b), false)) ∧
    (a < 0 ∧ b < 0 → flipSegmentOrder a b = ((-b, -a), true)) ∧
    (a < 0 ∧ 0 < b → flipSegmentOrder a b =
      if b.natAbs < a.natAbs then ((-b, -a), true) else ((a, b), false)) ∧
    (0 < a ∧ b < 0 → flipSegmentOrder a b =
      if a.natAbs < b.natAbs then ((-b, -a), true) else ((a, b), false)) ∧
    (flipSegmentOrder a b).1 = (flipSegmentOrder (-b) (-a)).1 ∧
    flipSegmentOrder 5 (-6) = ((6, -5), true) := by
  refine ⟨?_, ?_, ?_, ?_, ?_, by decide⟩
  · rintro ⟨ha', hb'⟩
    simp [flipSegmentOrder, ha'.not_lt, hb'.not_lt, ha', hb']
  · rintro ⟨ha', hb'⟩
    simp [flipSegmentOrder, ha'.not_lt, hb'.not_lt, ha', hb']
  · rintro ⟨ha', hb'⟩
    by_cases hn : b.natAbs < a.natAbs <;>
      simp [flipSegmentOrder, ha'.not_lt, hb'.not_lt, ha', hn]
  · rintro ⟨ha', hb'⟩
    by_cases hn : a.natAbs < b.natAbs <;>
      simp [flipSegmentOrder, ha'.not_lt, hb'.not_lt, hn]
  · rcases ha.lt_or_lt with ha' | ha' <;> rcases hb.lt_or_lt with hb' | hb'
    · -- both negative
      have h₁ : flipSegmentOrder a b = ((-b, -a), true) := by
        simp [flipSegmentOrder, ha'.not_lt, hb'.not_lt, ha', hb']
      have h₂ : flipSegmentOrder (-b) (-a) = ((-b, -a), false) := by
        simp [flipSegmentOrder, neg_pos.mpr ha', neg_pos.mpr hb']
      rw [h₁, h₂]
    · -- a negative, b positive
      have hbneg : -b < 0 := neg_lt_zero.mpr hb'
      have hapos : 0 < -a := neg_pos.mpr ha'
      rcases Nat.lt_trichotomy b.natAbs a.natAbs with hn | hn | hn
      · have h₁ : flipSegmentOrder a b = ((-b, -a), true) := by
          simp [flipSegmentOrder, ha'.not_lt, hb'.not_lt, ha', hn]
        have h₂ : flipSegmentOrder (-b) (-a) = ((-b, -a), false) := by
          simp [flipSegmentOrder, hbneg.not_lt, hapos.not_lt, hbneg, Int.natAbs_neg]
          omega
        rw [h₁, h₂]
      · have hab : a = -b := by omega
        have h₁ : flipSegmentOrder a b = ((a, b), false) := by
          simp [flipSegmentOrder, ha'.not_lt, hb'.not_lt, ha', hn.not_lt, hn]
        have h₂ : flipSegmentOrder (-b) (-a) = ((-b, -a), false) := by
          simp [flipSegmentOrder, hbneg.not_lt, hapos.not_lt, hbneg, Int.natAbs_neg]
          omega
        rw [h₁, h₂]
        simp only [Prod.mk.injEq]
        constructor
        · omega
        · omega
      · have h₁ : flipSegmentOrder a b = ((a, b), false) := by
          simp [flipSegmentOrder, ha'.not_lt, hb'.not_lt, ha']
          omega
        have h₂ : flipSegmentOrder (-b) (-a) = ((a, b), true) := by
          simp [flipSegmentOrder, hbneg.not_lt, hapos.not_lt, hbneg, Int.natAbs_neg]
          omega
        rw [h₁, h₂]
    · -- a positive, b negative
      have haneg : -a < 0 := neg_lt_zero.mpr ha'
      have hbpos : 0 < -b := neg_pos.mpr hb'
      rcases Nat.lt_trichotomy a.natAbs b.natAbs with hn | hn | hn
      · have h₁ : flipSegmentOrder a b = ((-b, -a), true) := by
          unfold flipSegmentOrder
          split_ifs <;> simp_all <;> omega
        have h₂ : flipSegmentOrder (-b) (-a) = ((-b, -a), false) := by
          unfold flipSegmentOrder
          split_ifs <;> simp_all <;> omega
        rw [h₁, h₂]
      · have hab : b = -a := by omega
        have h₁ : flipSegmentOrder a b = ((a, b), false) := by
          unfold flipSegmentOrder
          split_ifs <;> simp_all <;> omega
        have h₂ : flipSegmentOrder (-b) (-a) = ((-b, -a), false) := by
          unfold flipSegmentOrder
          split_ifs <;> simp_all <;> omega
        rw [h₁, h₂]
        simp only [Prod.mk.injEq]
        exact ⟨by omega, by omega⟩
      · have h₁ : flipSegmentOrder a b = ((a, b), false) := by
          unfold flipSegmentOrder
          split_ifs <;> simp_all <;> omega
        have h₂ : flipSegmentOrder (-b) (-a) = ((a, b), true) := by
          unfold flipSegmentOrder
          split_ifs <;> simp_all <;> omega
        rw [h₁, h₂]
    · -- both positive
      have h₁ : flipSegmentOrder a b = ((a, b), false) := by
        simp [flipSegmentOrder, ha', hb']
      have h₂ : flipSegmentOrder (-b) (-a) = ((a, b), true) := by
        simp [flipSegmentOrder, (neg_lt_zero.mpr hb').not_lt, (neg_lt_zero.mpr ha'),
          (neg_lt_zero.mpr hb')]
      rw [h₁, h₂]

theorem c8_witness :
    (5 : ℤ) ≠ 0 ∧ (-6 : ℤ) ≠ 0 ∧
    (flipSegmentOrder 5 (-6)).1 = (flipSegmentOrder 6 (-5)).1 ∧
    flipSegmentOrder 5 (-6) = ((6, -5), true) :=
  ⟨by decide, by decide,
   (c8_flip_segment_order 5 (-6) (by decide) (by decide)).2.2.2.2.1,
   (c8_flip_segment_order 5 (-6) (by decide) (by decide)).2.2.2.2.2⟩

/-- Claim C9: the source computes `first_alignment` and `last_alignment` for
the overlap capture but keys both entries with the leftover loop variable
`alignment` (the LAST element of the sorted-by-raw-score list, i.e. the
lowest-raw-score alignment), not with the first/last alignments of the
working list as the specification states.  Evaluation at a read with three
retained alignments (signed references 3, 5, 7 in read order; raw scores
10, 1, 7, so the leftover loop variable is the reference-5 alignment): both
overlap entries are keyed by reference 5 where the claim requires keys from
references 3 and 7. -/
theorem c9_overlap_key_evaluation :
    (collectFromRead "ACGTACGT"
        [exReadAlignment₁, exReadAlignment₂, exReadAlignment₃]).2 =
      [(-5, "GT"), (5, "GG")] ∧
    exReadAlignment₁.signedRefNum = 3 ∧ exReadAlignment₃.signedRefNum = 7 ∧
    (-5 : ℤ) ≠ -exReadAlignment₁.signedRefNum ∧ (5 : ℤ) ≠ exReadAlignment₃.signedRefNum := by
  refine ⟨by decide, by decide, by decide, by decide, by decide⟩

/-- Claim C10: `create_long_read_bridges` always returns the empty list —
the collection phase fills its dictionaries, the synthesis phase is unwritten
and the function ends with `return []`. -/
theorem c10_returns_empty (graphOverlap : ℕ) (readDict : String → Read)
    (readNames : List String) (singleCopySegments : List SingleCopySegment)
    (verbosity : ℤ) (existingBridges : List LongReadBridge) (minScaledScore : ℚ) :
    createLongReadBridges graphOverlap readDict readNames singleCopySegments verbosity
      existingBridges minScaledScore = [] := rfl
